import Mathlib

/-!
Verification of the claude-sound settings-reconciliation core and its
auxiliary components, as a shallow embedding of the JavaScript sources
(`src/hooks.js`, `src/sounds.js`, `src/tts.js`, `src/import-sound.js`).

JSON values are modelled by the inductive type `JVal`; JavaScript objects
are association lists in insertion order, matching the iteration order of
`Object.entries` and object spread for the (non-integer) string keys this
program manipulates.  In-place mutation of a freshly spread object is
modelled by functional update of the association list.  Machine strings
are Lean `String`s; the UTF-16 `length` of JavaScript is modelled by
`jsLength` (sum of UTF-16 code-unit sizes).
-/

namespace ClaudeSound

/-- Association-list lookup, first matching key, like JavaScript property
read on an object whose entries are listed in insertion order. -/
def alGet {α : Type} : List (String × α) → String → Option α
  | [], _ => none
  | kv :: rest, k => if kv.1 = k then some kv.2 else alGet rest k

/-- Association-list update modelling JavaScript property assignment:
replace the value at the first occurrence of the key in place, otherwise
append the new entry at the end (insertion order). -/
def alSet {α : Type} : List (String × α) → String → α → List (String × α)
  | [], k, v => [(k, v)]
  | kv :: rest, k, v => if kv.1 = k then (k, v) :: rest else kv :: alSet rest k v

/-- Association-list deletion modelling the JavaScript `delete` operator
(JavaScript objects never hold a key twice, so removing every occurrence
agrees with removing the one occurrence). -/
def alDel {α : Type} : List (String × α) → String → List (String × α)
  | [], _ => []
  | kv :: rest, k => if kv.1 = k then alDel rest k else kv :: alDel rest k

/-- Keys of an association list, in order. -/
def alKeys {α : Type} (kvs : List (String × α)) : List String :=
  kvs.map Prod.fst

/-- Fold a sequence of key-value assignments over an association list. -/
def alSets {α : Type} (init : List (String × α)) (asgs : List (String × α)) :
    List (String × α) :=
  asgs.foldl (fun m kv => alSet m kv.1 kv.2) init

/-- Boolean distinctness of a key list (JavaScript objects cannot repeat a
key; documents parsed from JSON always satisfy this). -/
def keysNodupB : List String → Bool
  | [] => true
  | k :: ks => !ks.contains k && keysNodupB ks

/-- JSON-like values: the data manipulated by the settings reconciler.
`obj` keeps fields in insertion order, as JavaScript objects do. -/
inductive JVal where
  | null
  | bool (b : Bool)
  | num (n : Int)
  | str (s : String)
  | arr (elems : List JVal)
  | obj (fields : List (String × JVal))
deriving Repr

/-- JavaScript truthiness of a JSON value (`NaN` does not arise here). -/
def JVal.truthy : JVal → Bool
  | .null => false
  | .bool b => b
  | .num n => n != 0
  | .str s => s ≠ ""
  | .arr _ => true
  | .obj _ => true

/-- Own enumerable string-keyed entries of a value, as produced by both
`Object.entries(v)` and object spread `\x7b...v\x7d`: the fields of an object,
the decimal-indexed elements of an array, the decimal-indexed one-character
strings of a string, and nothing for primitives. -/
def JVal.ownEntries : JVal → List (String × JVal)
  | .obj kvs => kvs
  | .arr xs => xs.enum.map (fun p => (toString p.1, p.2))
  | .str s => s.toList.enum.map (fun p => (toString p.1, JVal.str (String.mk [p.2])))
  | _ => []

/-- Optional-chain property read `v?.k`: a field of an object, `undefined`
(here `none`) for every other shape this program reads from. -/
def JVal.getField : JVal → String → Option JVal
  | .obj kvs, k => alGet kvs k
  | _, _ => none

mutual

/-- Well-formedness of a JSON value: the own-entry keys of every node are
distinct, recursively.  For objects this says each key occurs at most
once; for arrays and strings the own-entry keys are distinct decimal
indices, so the condition holds for every actual value (it is recorded
uniformly so that the development does not need injectivity of decimal
numerals).  Every value produced by `JSON.parse` satisfies `wfB`. -/
def JVal.wfB : JVal → Bool
  | .null => true
  | .bool _ => true
  | .num _ => true
  | .str s => keysNodupB (alKeys (JVal.ownEntries (.str s)))
  | .arr xs => keysNodupB (alKeys (JVal.ownEntries (.arr xs))) && JVal.wfList xs
  | .obj kvs => keysNodupB (alKeys kvs) && JVal.wfFields kvs

/-- All members of a list of values are well-formed. -/
def JVal.wfList : List JVal → Bool
  | [] => true
  | x :: xs => x.wfB && JVal.wfList xs

/-- All values of an association list are well-formed. -/
def JVal.wfFields : List (String × JVal) → Bool
  | [] => true
  | kv :: kvs => kv.2.wfB && JVal.wfFields kvs

end

/-- The UTF-16 length of a string, which is what the JavaScript `length`
property and the length comparisons in the source measure. -/
def jsLength (s : String) : Nat :=
  s.toList.foldl (fun n c => n + (Char.utf16Size c).toNat) 0

/-- The JavaScript whitespace class matched by the regular-expression
escape `\s`. -/
def isJsWhitespace (c : Char) : Bool :=
  c == ' ' || c == '\t' || c == '\n' || c == '\r' ||
  c.toNat == 0x0b || c.toNat == 0x0c || c.toNat == 0xa0 ||
  c.toNat == 0x1680 || (0x2000 ≤ c.toNat && c.toNat ≤ 0x200a) ||
  c.toNat == 0x2028 || c.toNat == 0x2029 || c.toNat == 0x202f ||
  c.toNat == 0x205f || c.toNat == 0x3000 || c.toNat == 0xfeff

/-- Substring containment, the JavaScript `String.prototype.includes`. -/
def strIncludes (s pat : String) : Bool :=
  go pat.toList s.toList
where
  /-- Scan for an occurrence of the pattern starting at each position. -/
  go (p : List Char) : List Char → Bool
    | [] => p.isEmpty
    | c :: rest => p.isPrefixOf (c :: rest) || go p rest

end ClaudeSound

namespace ClaudeSound.Hooks

/-- The fixed enumeration of the 14 hook event names (`HOOK_EVENTS` in
`src/hooks.js`). -/
def HOOK_EVENTS : List String :=
  ["SessionStart", "UserPromptSubmit", "PreToolUse", "PermissionRequest",
   "PostToolUse", "PostToolUseFailure", "Notification", "SubagentStart",
   "SubagentStop", "Stop", "TeammateIdle", "TaskCompleted", "PreCompact",
   "SessionEnd"]

/-- The ownership marker embedded in generated commands
(`MANAGED_TOKEN` in `src/hooks.js`). -/
def MANAGED_TOKEN : String := "--managed-by claude-sound"

/-- Membership in the character class of the regular expression
`SAFE_SOUND_ID` (alphanumeric, slash, underscore, hyphen). -/
def isSafeSoundChar (c : Char) : Bool :=
  ('a' ≤ c && c ≤ 'z') || ('A' ≤ c && c ≤ 'Z') || ('0' ≤ c && c ≤ '9') ||
  c == '/' || c == '_' || c == '-'

/-- The test of the anchored regular expression `SAFE_SOUND_ID`
(one or more characters of the safe class). -/
def safeSoundIdTest (s : String) : Bool :=
  !s.isEmpty && s.toList.all isSafeSoundChar

/-- `validateEventName` from `src/hooks.js`: succeeds exactly on the 14
enumerated event names, otherwise throws (modelled by `Except.error`). -/
def validateEventName (eventName : String) : Except String Unit :=
  if HOOK_EVENTS.contains eventName then .ok ()
  else .error ("Invalid event name: " ++ eventName)

/-- `validateSoundId` from `src/hooks.js`: succeeds exactly on non-empty
strings over the safe class of UTF-16 length at most 120. -/
def validateSoundId (soundId : String) : Except String Unit :=
  if !safeSoundIdTest soundId || jsLength soundId > 120 then
    .error ("Invalid sound id: " ++ soundId)
  else .ok ()

/-- `isManagedCommand` from `src/hooks.js`: the argument is a string that
contains the ownership marker (the argument is an optional field read, so
any non-string shape yields `false`). -/
def isManagedCommand : Option JVal → Bool
  | some (.str s) => strIncludes s MANAGED_TOKEN
  | _ => false

/-- The literal searched for by the extraction pattern `--sound`. -/
def SOUND_FLAG : List Char := "--sound".toList

/-- One attempted match of `--sound\s+([^\s]+)` at the current position:
the literal, then at least one whitespace, then the maximal non-empty run
of non-whitespace, which is the capture. -/
def matchSoundAt (cs : List Char) : Option String :=
  if SOUND_FLAG.isPrefixOf cs then
    if (cs.drop SOUND_FLAG.length).takeWhile isJsWhitespace = [] then none
    else if ((cs.drop SOUND_FLAG.length).dropWhile isJsWhitespace).takeWhile
        (fun c => !isJsWhitespace c) = [] then none
    else some (String.mk (((cs.drop SOUND_FLAG.length).dropWhile
        isJsWhitespace).takeWhile (fun c => !isJsWhitespace c)))
  else none

/-- Left-to-right search of the regular-expression engine: try to match at
each successive position and return the first capture. -/
def searchSoundFlag : List Char → Option String
  | [] => none
  | c :: rest =>
    match matchSoundAt (c :: rest) with
    | some t => some t
    | none => searchSoundFlag rest

/-- `extractManagedSoundId` from `src/hooks.js`: the capture of the first
match of `--sound\s+([^\s]+)` in the command string, if any (call sites
always pass a string, the `|| ''` default never fires with a string). -/
def extractManagedSoundId (command : String) : Option String :=
  searchSoundFlag command.toList

/-- Processing of one handler inside `getExistingManagedMappings`: a
managed command contributes its extracted sound id to the map, provided
the id re-passes validation; everything else contributes nothing. -/
def gemHandler (eventName : String) (map : List (String × String)) (h : JVal) :
    List (String × String) :=
  match h.getField "command" with
  | some (.str c) =>
    if strIncludes c MANAGED_TOKEN then
      match extractManagedSoundId c with
      | some soundId =>
        if safeSoundIdTest soundId && jsLength soundId ≤ 120 then
          alSet map eventName soundId
        else map
      | none => map
    else map
  | _ => map

/-- Processing of one hook group inside `getExistingManagedMappings`: scan
its `hooks` array of handlers if it has one. -/
def gemGroup (eventName : String) (map : List (String × String)) (g : JVal) :
    List (String × String) :=
  match g.getField "hooks" with
  | some (.arr handlers) => handlers.foldl (gemHandler eventName) map
  | _ => map

/-- Processing of one `hooks` entry inside `getExistingManagedMappings`:
only array-valued entries keyed by one of the 14 event names are scanned. -/
def gemEvent (map : List (String × String)) (kv : String × JVal) :
    List (String × String) :=
  match kv.2 with
  | .arr groups =>
    if HOOK_EVENTS.contains kv.1 then groups.foldl (gemGroup kv.1) map else map
  | _ => map

/-- `getExistingManagedMappings` from `src/hooks.js`: scan
`settings?.hooks` (which must be a non-null object, arrays included) and
record, per event, the last validated sound id found on a managed handler. -/
def getExistingManagedMappings (settings : JVal) : List (String × String) :=
  match settings.getField "hooks" with
  | some (.obj kvs) => kvs.foldl gemEvent []
  | some (.arr xs) => ((JVal.arr xs).ownEntries).foldl gemEvent []
  | _ => []

/-- `buildManagedCommand` from `src/hooks.js`: validate both identifiers,
then produce the deterministic command string carrying the marker. -/
def buildManagedCommand (eventName soundId : String) : Except String String := do
  _ ← validateEventName eventName
  _ ← validateSoundId soundId
  pure ("npx --yes claude-sound@latest play --event " ++ eventName ++
    " --sound " ++ soundId ++ " " ++ MANAGED_TOKEN)

/-- The strip phase of `applyMappingsToSettings` on one group: keep the
non-managed handlers; a group left with no handlers (including a group
whose `hooks` field is missing or not an array) is dropped. -/
def stripGroup (g : JVal) : Option JVal :=
  let handlers := match g.getField "hooks" with
    | some (.arr hs) => hs
    | _ => []
  let kept := handlers.filter (fun h => !isManagedCommand (h.getField "command"))
  if kept.isEmpty then none
  else some (.obj (alSet g.ownEntries "hooks" (.arr kept)))

/-- The strip phase of `applyMappingsToSettings` on one entry of the
spread `hooks` object: a non-array entry is left untouched; an array entry
is rebuilt from its surviving groups, or deleted when none survive. -/
def stripEntry (kv : String × JVal) : Option (String × JVal) :=
  match kv.2 with
  | .arr groups =>
    let ng := groups.filterMap stripGroup
    if ng.isEmpty then none else some (kv.1, .arr ng)
  | _ => some (kv.1, kv.2)

/-- The strip phase of `applyMappingsToSettings` over all entries of the
spread `hooks` object. -/
def stripHooks (hkvs : List (String × JVal)) : List (String × JVal) :=
  hkvs.filterMap stripEntry

/-- The synthesized handler object of the apply phase. -/
def mkHandler (cmd : String) : JVal :=
  .obj [("type", .str "command"), ("command", .str cmd),
        ("async", .bool true), ("timeout", .num 5)]

/-- The synthesized wildcard-matcher group wrapping one handler. -/
def mkGroup (cmd : String) : JVal :=
  .obj [("matcher", .str "*"), ("hooks", .arr [mkHandler cmd])]

/-- One iteration of the apply phase of `applyMappingsToSettings`: a
falsy (empty) sound id is skipped; otherwise the synthesized group is
appended after the existing groups of the event (an existing non-array
value contributes no groups and is overwritten in place). -/
def applyOne (hkvs : List (String × JVal)) (em : String × String) :
    Except String (List (String × JVal)) :=
  if em.2 = "" then .ok hkvs
  else do
    let cmd ← buildManagedCommand em.1 em.2
    let existingGroups := match alGet hkvs em.1 with
      | some (.arr gs) => gs
      | _ => []
    pure (alSet hkvs em.1 (.arr (existingGroups ++ [mkGroup cmd])))

/-- The apply phase over all mapping entries, in iteration order. -/
def applyAll (hkvs : List (String × JVal)) (mappings : List (String × String)) :
    Except String (List (String × JVal)) :=
  mappings.foldlM applyOne hkvs

/-- The spread `hooks` entries a reconciliation starts from: the own
entries of the truthy `hooks` value of the spread settings
(`\x7b...(out.hooks || \x7b\x7d)\x7d` in the source). -/
def hooksSpread (settings : JVal) : List (String × JVal) :=
  match alGet settings.ownEntries "hooks" with
  | some h => if h.truthy then h.ownEntries else []
  | none => []

/-- `applyMappingsToSettings` from `src/hooks.js`: spread the settings and
its `hooks`, strip every managed handler, append one synthesized group per
non-empty mapping entry (propagating a validation throw), and drop the
`hooks` key when it ends up empty.  The early in-place assignment
`out.hooks = ...` of the source is subsumed by the final functional update
of the `hooks` key, which lands at the same position. -/
def applyMappingsToSettings (settings : JVal) (mappings : List (String × String)) :
    Except String JVal :=
  match applyAll (stripHooks (hooksSpread settings)) mappings with
  | .error e => .error e
  | .ok h2 =>
    if h2.isEmpty then .ok (.obj (alDel settings.ownEntries "hooks"))
    else .ok (.obj (alSet settings.ownEntries "hooks" (.obj h2)))

/-- Validity of a mapping as an association list: distinct keys, every key
one of the 14 event names, and every value either empty (to be skipped) or
a safe sound id of UTF-16 length at most 120. -/
def validMappingB (m : List (String × String)) : Bool :=
  keysNodupB (m.map Prod.fst) &&
  m.all (fun em =>
    HOOK_EVENTS.contains em.1 &&
    (em.2 == "" || (safeSoundIdTest em.2 && jsLength em.2 ≤ 120)))

/-- The command string produced by a successful `buildManagedCommand`. -/
def managedCommandString (eventName soundId : String) : String :=
  "npx --yes claude-sound@latest play --event " ++ eventName ++
    " --sound " ++ soundId ++ " " ++ MANAGED_TOKEN

/-- The list of handlers of a group (`Array.isArray(g?.hooks) ? g.hooks : []`). -/
def handlersOf (g : JVal) : List JVal :=
  match g.getField "hooks" with
  | some (.arr hs) => hs
  | _ => []

/-- The groups an existing `hooks` entry contributes to the apply phase
(`Array.isArray(v) ? v : []`). -/
def egs : Option JVal → List JVal
  | some (.arr gs) => gs
  | _ => []

/-- The strip phase viewed on a single looked-up entry value: array values
are rebuilt from surviving groups or deleted, other values pass through. -/
def stripEntryVal : Option JVal → Option JVal
  | some (.arr gs) =>
    let ng := gs.filterMap stripGroup
    if ng.isEmpty then none else some (.arr ng)
  | some v => some v
  | none => none

/-- One apply-phase iteration, specialised to mappings that pass
validation so that `buildManagedCommand` cannot throw. -/
def applyOnePure (hkvs : List (String × JVal)) (em : String × String) :
    List (String × JVal) :=
  if em.2 = "" then hkvs
  else alSet hkvs em.1
    (.arr (egs (alGet hkvs em.1) ++ [mkGroup (managedCommandString em.1 em.2)]))

/-- The apply phase over all mapping entries, specialised to valid
mappings. -/
def applyAllPure (hkvs : List (String × JVal)) (mappings : List (String × String)) :
    List (String × JVal) :=
  mappings.foldl applyOnePure hkvs

/-- The managed command string of a handler, if it has one: a string
`command` field containing the ownership marker. -/
def handlerManagedCommand (h : JVal) : Option String :=
  match h.getField "command" with
  | some (.str c) => if strIncludes c MANAGED_TOKEN then some c else none
  | _ => none

/-- The validated sound id extracted from a managed command, if any: the
capture of the extraction pattern, kept only when it re-passes the sound
id validation. -/
def cmdValidId (c : String) : Option String :=
  match extractManagedSoundId c with
  | some soundId =>
    if safeSoundIdTest soundId && jsLength soundId ≤ 120 then some soundId
    else none
  | none => none

/-- The map assignment a single handler performs inside
`getExistingManagedMappings`, if any. -/
def handlerAssignment (eventName : String) (h : JVal) : Option (String × String) :=
  match handlerManagedCommand h with
  | some c => (cmdValidId c).map (fun s => (eventName, s))
  | none => none

/-- The `hooks` entries that `getExistingManagedMappings` iterates over:
the own entries of a non-null object-typed `hooks` value. -/
def hooksEntriesOf (settings : JVal) : List (String × JVal) :=
  match settings.getField "hooks" with
  | some (.obj kvs) => kvs
  | some (.arr xs) => (JVal.arr xs).ownEntries
  | _ => []

/-- All map assignments one `hooks` entry performs, in scan order. -/
def eventAssignments (kv : String × JVal) : List (String × String) :=
  match kv.2 with
  | .arr groups =>
    if HOOK_EVENTS.contains kv.1 then
      groups.flatMap (fun g => (handlersOf g).filterMap (handlerAssignment kv.1))
    else []
  | _ => []

/-- All map assignments `getExistingManagedMappings` performs, in scan
order (entries in order, groups in array order, handlers in array order). -/
def gemAssignments (settings : JVal) : List (String × String) :=
  (hooksEntriesOf settings).flatMap eventAssignments

/-- The managed commands found for one event, in scan order: the command
strings containing the ownership marker among the handlers of the
array-valued `hooks` entries keyed by that (enumerated) event name. -/
def managedCommandsFor (settings : JVal) (e : String) : List String :=
  (hooksEntriesOf settings).flatMap (fun kv =>
    if kv.1 = e then
      match kv.2 with
      | .arr groups =>
        if HOOK_EVENTS.contains kv.1 then
          groups.flatMap (fun g => (handlersOf g).filterMap handlerManagedCommand)
        else []
      | _ => []
    else [])

/-- The managed commands one `hooks` entry contributes to
`managedCommandsFor` for a given event, as a named function. -/
def mcfEntry (e : String) (kv : String × JVal) : List String :=
  if kv.1 = e then
    match kv.2 with
    | .arr groups =>
      if HOOK_EVENTS.contains kv.1 then
        groups.flatMap (fun g => (handlersOf g).filterMap handlerManagedCommand)
      else []
    | _ => []
  else []

/-- Lookup in a mapping restricted to its entries with non-empty values. -/
def mappingValue (m : List (String × String)) (e : String) : Option String :=
  match alGet m e with
  | some s => if s = "" then none else some s
  | none => none

/-- A `hooks` object that contains only managed content: every entry is an
array of groups, and every handler of every group carries a managed
command. -/
def allManagedHooksB (hkvs : List (String × JVal)) : Bool :=
  hkvs.all (fun kv =>
    match kv.2 with
    | .arr gs =>
      gs.all (fun g =>
        (handlersOf g).all (fun h => isManagedCommand (h.getField "command")))
    | _ => false)

/-- A group all of whose handlers are non-managed, with at least one
handler: the foreign groups the specification says reconciliation keeps
verbatim. -/
def unmanagedGroupB (g : JVal) : Bool :=
  !(handlersOf g).isEmpty &&
  (handlersOf g).all (fun h => !isManagedCommand (h.getField "command"))

/-- The handlers of a group that survive the strip phase
(`handlers.filter((h) => !isManagedCommand(h?.command))` in the source):
exactly the non-managed ones, in their original order. -/
def keptHandlers (g : JVal) : List JVal :=
  (handlersOf g).filter (fun h => !isManagedCommand (h.getField "command"))

/-- A group is kept by the strip phase exactly when at least one of its
handlers survives (`kept.length > 0` in the source). -/
def groupKeptB (g : JVal) : Bool := !(keptHandlers g).isEmpty

/-- The kept group as rebuilt by the strip phase (`{ ...g, hooks: kept }`
in the source): every field unchanged except `hooks`, which now holds the
surviving handlers. -/
def stripRebuild (g : JVal) : JVal :=
  .obj (alSet g.ownEntries "hooks" (.arr (keptHandlers g)))

end ClaudeSound.Hooks

namespace ClaudeSound

/-- Structural deep equality of JSON values, the relation meant by
deep-equals in the specification: arrays must agree elementwise in order,
objects must give deeply equal lookup results for every key (so object key
order is irrelevant), primitives must be equal. -/
inductive DeepEq : JVal → JVal → Prop where
  | null : DeepEq .null .null
  | bool (b : Bool) : DeepEq (.bool b) (.bool b)
  | num (n : Int) : DeepEq (.num n) (.num n)
  | str (s : String) : DeepEq (.str s) (.str s)
  | arr {xs ys : List JVal} (h : List.Forall₂ DeepEq xs ys) :
      DeepEq (.arr xs) (.arr ys)
  | obj {kvs kvs' : List (String × JVal)}
      (h : ∀ k, Option.Rel DeepEq (alGet kvs k) (alGet kvs' k)) :
      DeepEq (.obj kvs) (.obj kvs')

/-- Collapse each maximal run of characters outside the good class into a
single hyphen, as the global replacement of `[^...]+` by `-` does; the
flag records whether the previous character was part of a replaced run. -/
def collapseRuns (good : Char → Bool) : Bool → List Char → List Char
  | _, [] => []
  | prev, c :: rest =>
    if good c then c :: collapseRuns good false rest
    else if prev then collapseRuns good prev rest
    else '-' :: collapseRuns good true rest

/-- Trim JavaScript whitespace from both ends, the JavaScript
`String.prototype.trim`. -/
def jsTrim (s : String) : String :=
  String.mk (((s.toList.dropWhile isJsWhitespace).reverse.dropWhile
    isJsWhitespace).reverse)

/-- One base-36 digit, lowercase, as produced by `Number.prototype.toString(36)`. -/
def base36Digit (d : Nat) : Char :=
  if d < 10 then Char.ofNat (48 + d) else Char.ofNat (87 + d)

/-- Fuelled digit accumulation for base-36 rendering; the fuel only
bounds the number of divisions and is always sufficient below. -/
def toBase36Aux : Nat → Nat → List Char → List Char
  | 0, n, acc => base36Digit (n % 36) :: acc
  | fuel + 1, n, acc =>
    if n < 36 then base36Digit n :: acc
    else toBase36Aux fuel (n / 36) (base36Digit (n % 36) :: acc)

/-- Base-36 digit list of a natural number, most significant first. -/
def toBase36 (n : Nat) : List Char := toBase36Aux n n []

/-- The 32-bit accumulation `h = (h * 31 + code) >>> 0` of `shortHash`,
identical in `src/tts.js` and `src/import-sound.js`. -/
def shortHashAcc : Nat → List Nat → Nat
  | h, [] => h
  | h, c :: cs => shortHashAcc ((h * 31 + c) % 4294967296) cs

/-- `shortHash` from `src/tts.js` and `src/import-sound.js`: the first six
base-36 digits of the 32-bit accumulator over the UTF-16 code units
(`Math.abs` is the identity on the unsigned accumulator; code units are
modelled by `Char.toNat`, exact on the basic multilingual plane). -/
def shortHash (s : String) : String :=
  String.mk ((toBase36 (shortHashAcc 0 (s.toList.map Char.toNat))).take 6)

/-- The JavaScript `String.prototype.endsWith`: the last characters of
the string are the pattern. -/
def strEndsWith (s p : String) : Bool :=
  s.toList.reverse.take p.toList.length == p.toList.reverse

/-- Remove the last `n` characters of a string. -/
def strDropRight (s : String) (n : Nat) : String :=
  String.mk (s.toList.take (s.toList.length - n))

/-- The raw last path segment of a path string (the part after the last
slash). -/
def lastSegment (p : String) : List Char :=
  (p.toList.reverse.takeWhile (fun c => c != '/')).reverse

/-- `path.basename` (POSIX): the last segment, ignoring trailing slashes. -/
def pathBasename (p : String) : String :=
  let cs := (p.toList.reverse.dropWhile (fun c => c == '/')).reverse
  String.mk ((cs.reverse.takeWhile (fun c => c != '/')).reverse)

/-- `path.extname` (POSIX): the suffix of the last segment from its last
dot, empty when the segment has no dot or only a leading dot. -/
def pathExtname (p : String) : String :=
  let b := lastSegment p
  let afterDot := b.reverse.takeWhile (fun c => c != '.')
  if afterDot.length = b.length then ""
  else if afterDot.length + 1 = b.length then ""
  else String.mk ('.' :: afterDot.reverse)

/-- `path.basename(p, ext)`: the basename with the extension suffix
stripped when it is a proper suffix. -/
def pathBasenameExt (p ext : String) : String :=
  let b := pathBasename p
  if ext ≠ "" && strEndsWith b ext && ext.toList.length < b.toList.length then
    strDropRight b ext.toList.length
  else b

/-- `path.join` of a directory and a relative segment, up to the path
normalization that none of the verified logic depends on. -/
def pathJoin (a b : String) : String := a ++ "/" ++ b

/-- ASCII lowercasing of a string (`toLowerCase` on the ASCII inputs this
program feeds it). -/
def lowerStr (s : String) : String := String.mk (s.toList.map Char.toLower)

end ClaudeSound

namespace ClaudeSound.Sounds

/-- One directory entry as returned by `readdir` with file types. -/
structure DirEnt where
  name : String
  isFile : Bool
deriving Repr, DecidableEq

/-- The filesystem contents the catalog build reads: the parsed manifest
(`none` when missing or invalid) and the three optional directory listings
(`none` when the directory is missing or unreadable). -/
structure CatalogInputs where
  manifest : Option (List (String × String))
  commonEntries : Option (List DirEnt)
  gameEntries : Option (List DirEnt)
  customEntries : Option (List DirEnt)

/-- The assignments performed by the manifest loop of
`buildSoundPathMap`: `map[it.id] = path.join(base, path.basename(it.file))`. -/
def manifestAssignments (base : String) (manifest : Option (List (String × String))) :
    List (String × String) :=
  match manifest with
  | some items => items.map (fun it => (it.1, pathJoin base (pathBasename it.2)))
  | none => []

/-- The assignments performed by one subdirectory loop of
`buildSoundPathMap`: files ending in `.mp3` or `.wav` map
`subdir/stem` to their path. -/
def subdirAssignments (base subdir : String) (entries : Option (List DirEnt)) :
    List (String × String) :=
  match entries with
  | some es =>
    es.filterMap (fun e =>
      if e.isFile && (strEndsWith e.name ".mp3" || strEndsWith e.name ".wav") then
        some (pathJoin subdir (pathBasenameExt e.name (pathExtname e.name)),
              pathJoin (pathJoin base subdir) e.name)
      else none)
  | none => []

/-- The assignments performed by the custom-directory loop of
`buildSoundPathMap`: files ending in `.mp3` or `.wav` map
`custom/stem` to their path. -/
def customAssignments (customDir : String) (entries : Option (List DirEnt)) :
    List (String × String) :=
  match entries with
  | some es =>
    es.filterMap (fun e =>
      if e.isFile && (strEndsWith e.name ".mp3" || strEndsWith e.name ".wav") then
        some ("custom/" ++ pathBasenameExt e.name (pathExtname e.name),
              pathJoin customDir e.name)
      else none)
  | none => []

/-- All assignments of `buildSoundPathMap` in discovery order: manifest,
then `common/`, then `game/`, then the custom directory. -/
def catalogAssignments (base customDir : String) (inp : CatalogInputs) :
    List (String × String) :=
  manifestAssignments base inp.manifest ++
  subdirAssignments base "common" inp.commonEntries ++
  subdirAssignments base "game" inp.gameEntries ++
  customAssignments customDir inp.customEntries

/-- `buildSoundPathMap` from `src/sounds.js` as a function of what the
filesystem contains: each loop assigns `map[id] = path` sequentially; a
plain assignment overwrites whatever an earlier source put there. -/
def buildSoundPathMap (base customDir : String) (inp : CatalogInputs) :
    List (String × String) :=
  alSets
    (alSets
      (alSets
        (alSets [] (manifestAssignments base inp.manifest))
        (subdirAssignments base "common" inp.commonEntries))
      (subdirAssignments base "game" inp.gameEntries))
    (customAssignments customDir inp.customEntries)

/-- Catalog inputs exhibiting a collision between the manifest (the first
source) and the `common/` directory (a later source) on the id
`common/pop`. -/
def collisionInputs : CatalogInputs :=
  { manifest := some [("common/pop", "pop.wav")]
  , commonEntries := some [{ name := "pop.mp3", isFile := true }]
  , gameEntries := some []
  , customEntries := some [] }

end ClaudeSound.Sounds

namespace ClaudeSound.Tts

/-- The shape test of the language pattern `^[a-zA-Z][a-zA-Z0-9-]*$`. -/
def langShapeTest (s : String) : Bool :=
  match s.toList with
  | [] => false
  | c :: rest =>
    (('a' ≤ c && c ≤ 'z') || ('A' ≤ c && c ≤ 'Z')) &&
    rest.all (fun d =>
      ('a' ≤ d && d ≤ 'z') || ('A' ≤ d && d ≤ 'Z') || ('0' ≤ d && d ≤ '9') ||
      d == '-')

/-- `validateLang` from `src/tts.js`: silently substitute the default
language for any malformed code (wrong length or wrong shape). -/
def validateLang (lang : String) : String :=
  if jsLength lang < 2 || jsLength lang > 10 then "en"
  else if !langShapeTest lang then "en"
  else lang

/-- `slugify` from `src/tts.js`: trim, keep the first 40 code units,
lowercase, collapse runs outside `[a-z0-9]` to single hyphens, strip one
leading and one trailing hyphen, defaulting to `custom` when empty. -/
def slugify (text : String) : String :=
  let trimmed := (jsTrim text).toList.take 40
  let collapsed := collapseRuns
    (fun c => ('a' ≤ c && c ≤ 'z') || ('0' ≤ c && c ≤ '9')) false
    (trimmed.map Char.toLower)
  let noLead := match collapsed with
    | '-' :: rest => rest
    | cs => cs
  let stripped := match noLead.reverse with
    | '-' :: rest => rest.reverse
    | _ => noLead
  if stripped.isEmpty then "custom" else String.mk stripped

/-- The network request and file write that a successful `generateTts`
performs: the query text and validated language of the single fetch, and
the name of the file written under the custom sounds directory. -/
structure TtsRequest where
  lang : String
  text : String
  fileName : String
deriving Repr, DecidableEq

/-- `generateTts` from `src/tts.js`: an `Except.error` models a throw
before any fetch is attempted or file is written; an `Except.ok` carries
the parameters of the one fetch performed and the file name written. -/
def generateTts (text : String) (optsLang : Option String) :
    Except String TtsRequest :=
  let trimmed := jsTrim text
  if trimmed = "" then .error "Text cannot be empty"
  else if jsLength trimmed > 200 then
    .error "Text must be 200 characters or less"
  else
    let baseSlug := slugify trimmed
    let unique := baseSlug ++ "-" ++ shortHash trimmed
    .ok { lang := validateLang (optsLang.getD "en"), text := trimmed,
          fileName := unique ++ ".mp3" }

end ClaudeSound.Tts

namespace ClaudeSound.ImportSound

/-- Allowed import extensions (`ALLOWED_EXT` in `src/import-sound.js`). -/
def ALLOWED_EXT : List String := [".mp3", ".wav"]

/-- The import size ceiling in bytes (`MAX_FILE_SIZE`, five MiB). -/
def MAX_FILE_SIZE : Nat := 5 * 1024 * 1024

/-- `slugifyFilename` from `src/import-sound.js`: lowercase, collapse runs
outside `[a-z0-9_-]` to single hyphens, strip all leading and trailing
hyphens, defaulting to `imported` when empty. -/
def slugifyFilename (name : String) : String :=
  let collapsed := collapseRuns
    (fun c => ('a' ≤ c && c ≤ 'z') || ('0' ≤ c && c ≤ '9') || c == '_' ||
      c == '-') false
    (name.toList.map Char.toLower)
  let stripped := ((collapsed.dropWhile (fun c => c == '-')).reverse.dropWhile
    (fun c => c == '-')).reverse
  if stripped.isEmpty then "imported" else String.mk stripped

/-- The result of one `stat` call. -/
structure FileStat where
  size : Nat
  isFile : Bool
deriving Repr, DecidableEq

/-- The filesystem view the import reads: working directory, home
directory, `stat` (with `none` modelling a thrown lookup error), existence
checks (`fs.access`), and file contents as byte lists. -/
structure Fs where
  cwd : String
  home : String
  stat : String → Option FileStat
  fileExists : String → Bool
  readBytes : String → List Nat

/-- `path.join` of a directory and a user segment: a leading separator on
the segment is merged, as Node normalization does (further normalization
is not depended upon). -/
def nodeJoin (a b : String) : String :=
  let bs := String.mk (b.toList.dropWhile (fun c => c == '/'))
  if bs = "" then a else a ++ "/" ++ bs

/-- `String.startsWith` as a character-list check. -/
def strStartsWith (s p : String) : Bool := p.toList.isPrefixOf s.toList

/-- `path.resolve(cwd, p)` up to normalization: absolute paths stand,
relative ones are anchored at the working directory. -/
def nodeResolve (cwd p : String) : String :=
  if strStartsWith p "/" then p
  else if p = "" then cwd
  else cwd ++ "/" ++ p

/-- The tilde expansion and resolution step of `validateSourcePath`. -/
def expandPath (fs : Fs) (trimmed : String) : String :=
  if strStartsWith trimmed "~" then
    nodeJoin fs.home (String.mk (trimmed.toList.drop 1))
  else nodeResolve fs.cwd trimmed

/-- The custom sounds directory `~/.claude-sound/sounds`. -/
def customSoundsDir (home : String) : String :=
  home ++ "/.claude-sound/sounds"

/-- `validateSourcePath` from `src/import-sound.js`: trim, resolve,
reject null bytes, restrict the lowercased extension, then `stat` and
reject directories, oversize files and empty files, in source order.
Returns the resolved path, the extension and the base name. -/
def validateSourcePath (fs : Fs) (inputPath : String) :
    Except String (String × String × String) :=
  if jsTrim inputPath = "" then .error "Path cannot be empty"
  else
    let trimmed := jsTrim inputPath
    let resolvedPath := expandPath fs trimmed
    if strIncludes resolvedPath (String.mk [Char.ofNat 0]) then
      .error "Invalid path"
    else
      let ext := lowerStr (pathExtname resolvedPath)
      if !ALLOWED_EXT.contains ext then
        .error ("Only .mp3 and .wav files are supported, got " ++ ext)
      else
        match fs.stat resolvedPath with
        | none => .error "no such file"
        | some st =>
          if !st.isFile then .error "Path must be a file, not a directory"
          else if st.size > MAX_FILE_SIZE then .error "File too large"
          else if st.size = 0 then .error "File is empty"
          else .ok (resolvedPath, ext, pathBasenameExt resolvedPath ext)

/-- The collision-avoidance loop of `importSound`: while the candidate
destination exists, try the slug with a hash suffix derived from the
resolved path and the attempt counter.  The fuel bounds the loop, whose
source form can only fail to exit if every candidate name is taken. -/
def findFreeDest (exists_ : String → Bool) (dir baseSlug ext resolved : String) :
    Nat → String → Nat → Option String
  | 0, _, _ => none
  | fuel + 1, destName, attempt =>
    if exists_ (nodeJoin dir destName) then
      findFreeDest exists_ dir baseSlug ext resolved fuel
        (baseSlug ++ "-" ++ shortHash (resolved ++ toString attempt) ++ ext)
        (attempt + 1)
    else some destName

/-- A successful import: the new sound id, the destination path, and the
bytes written there (the source copies by read-then-write). -/
structure ImportResult where
  soundId : String
  filePath : String
  bytes : List Nat
deriving Repr, DecidableEq

/-- `importSound` from `src/import-sound.js`: validate the source, slug
the base name to at most 40 characters, find a free destination name, and
copy the source bytes there. -/
def importSound (fs : Fs) (fuel : Nat) (sourcePath : String) :
    Except String ImportResult := do
  let (resolvedPath, ext, baseName) ← validateSourcePath fs sourcePath
  let dir := customSoundsDir fs.home
  let baseSlug := String.mk ((slugifyFilename baseName).toList.take 40)
  match findFreeDest fs.fileExists dir baseSlug ext resolvedPath fuel
      (baseSlug ++ ext) 0 with
  | none => .error "no free destination name"
  | some destName =>
    let destPath := nodeJoin dir destName
    pure { soundId := "custom/" ++ pathBasenameExt destName ext
         , filePath := destPath
         , bytes := fs.readBytes resolvedPath }

/-- A small filesystem exercising each import validation path: one good
10 KiB wav, one directory, one empty file, one oversized file. -/
def sampleFs : Fs :=
  { cwd := "/cwd"
  , home := "/home"
  , stat := fun s =>
      if s = "/cwd/My Sound!.wav" then some { size := 10240, isFile := true }
      else if s = "/cwd/d.mp3" then some { size := 5, isFile := false }
      else if s = "/cwd/empty.mp3" then some { size := 0, isFile := true }
      else if s = "/cwd/big.mp3" then
        some { size := 6 * 1024 * 1024, isFile := true }
      else none
  , fileExists := fun _ => false
  , readBytes := fun s => if s = "/cwd/My Sound!.wav" then [1, 2, 3] else [] }

end ClaudeSound.ImportSound

/-! ### Lemmas and claim theorems -/

namespace ClaudeSound

theorem alGet_alSet_self {α : Type} (kvs : List (String × α)) (k : String) (v : α) :
    alGet (alSet kvs k v) k = some v := by
  induction kvs with
  | nil => simp [alSet, alGet]
  | cons kv rest ih =>
    by_cases h : kv.1 = k
    · simp [alSet, h, alGet]
    · simp [alSet, h, alGet, ih]

theorem alGet_alSet_ne {α : Type} (kvs : List (String × α)) {k k' : String} (v : α)
    (h : k' ≠ k) : alGet (alSet kvs k v) k' = alGet kvs k' := by
  have hk : ¬ k = k' := fun hh => h hh.symm
  induction kvs with
  | nil => simp [alSet, alGet, hk]
  | cons kv rest ih =>
    by_cases hkv : kv.1 = k
    · have hne : ¬ kv.1 = k' := by rw [hkv]; exact hk
      simp [alSet, hkv, alGet, hk, hne]
    · simp only [alSet, if_neg hkv, alGet]
      rw [ih]

theorem alGet_alDel_self {α : Type} (kvs : List (String × α)) (k : String) :
    alGet (alDel kvs k) k = none := by
  induction kvs with
  | nil => rfl
  | cons kv rest ih =>
    by_cases h : kv.1 = k
    · simpa [alDel, h] using ih
    · simpa [alDel, h, alGet] using ih

theorem alGet_alDel_ne {α : Type} (kvs : List (String × α)) {k k' : String}
    (h : k' ≠ k) : alGet (alDel kvs k) k' = alGet kvs k' := by
  induction kvs with
  | nil => rfl
  | cons kv rest ih =>
    by_cases hk : kv.1 = k
    · have hne : ¬ kv.1 = k' := by rw [hk]; exact fun hh => h hh.symm
      simp only [alDel, if_pos hk, alGet, if_neg hne]
      exact ih
    · simp only [alDel, if_neg hk, alGet]
      rw [ih]

theorem alDel_alSet {α : Type} (kvs : List (String × α)) (k : String) (v : α) :
    alDel (alSet kvs k v) k = alDel kvs k := by
  induction kvs with
  | nil => simp [alSet, alDel]
  | cons kv rest ih =>
    by_cases h : kv.1 = k
    · simp [alSet, h, alDel]
    · simp only [alSet, if_neg h, alDel]
      rw [ih]

theorem alDel_alDel {α : Type} (kvs : List (String × α)) (k : String) :
    alDel (alDel kvs k) k = alDel kvs k := by
  induction kvs with
  | nil => rfl
  | cons kv rest ih =>
    by_cases h : kv.1 = k
    · simpa [alDel, h] using ih
    · simp only [alDel, if_neg h]
      rw [ih]

theorem alSet_alSet_same {α : Type} (kvs : List (String × α)) (k : String) (v w : α) :
    alSet (alSet kvs k v) k w = alSet kvs k w := by
  induction kvs with
  | nil => simp [alSet]
  | cons kv rest ih =>
    by_cases h : kv.1 = k
    · simp [alSet, h]
    · simp only [alSet, if_neg h]
      rw [ih]

theorem alGet_mem {α : Type} {kvs : List (String × α)} {k : String} {v : α}
    (h : alGet kvs k = some v) : (k, v) ∈ kvs := by
  induction kvs with
  | nil => simp [alGet] at h
  | cons kv rest ih =>
    by_cases hk : kv.1 = k
    · simp only [alGet, if_pos hk] at h
      have hv : kv.2 = v := Option.some.inj h
      have hkv : kv = (k, v) := by
        obtain ⟨a, b⟩ := kv
        simp only at hk hv
        rw [hk, hv]
      rw [← hkv]
      exact List.mem_cons_self _ _
    · simp only [alGet, if_neg hk] at h
      exact List.mem_cons_of_mem _ (ih h)

theorem mem_alKeys_alSet {α : Type} (kvs : List (String × α)) (k x : String) (v : α) :
    x ∈ alKeys (alSet kvs k v) ↔ x ∈ alKeys kvs ∨ x = k := by
  induction kvs with
  | nil => simp [alSet, alKeys]
  | cons kv rest ih =>
    by_cases h : kv.1 = k
    · have hs : alSet (kv :: rest) k v = (k, v) :: rest := by simp [alSet, h]
      rw [hs]
      simp only [alKeys, List.map_cons, List.mem_cons]
      constructor
      · rintro (rfl | hx)
        · exact Or.inr rfl
        · exact Or.inl (Or.inr hx)
      · rintro ((hx | hx) | rfl)
        · rw [hx, h]; exact Or.inl rfl
        · exact Or.inr hx
        · exact Or.inl rfl
    · simp only [alSet, if_neg h, alKeys, List.map_cons, List.mem_cons]
      rw [show List.map Prod.fst (alSet rest k v) = alKeys (alSet rest k v) from rfl, ih]
      tauto

theorem nodup_alKeys_alSet {α : Type} {kvs : List (String × α)} (k : String) (v : α)
    (h : (alKeys kvs).Nodup) : (alKeys (alSet kvs k v)).Nodup := by
  induction kvs with
  | nil => simp [alSet, alKeys]
  | cons kv rest ih =>
    by_cases hk : kv.1 = k
    · simp only [alSet, if_pos hk, alKeys, List.map_cons, List.nodup_cons] at h ⊢
      exact ⟨by rw [← hk] at *; exact h.1, h.2⟩
    · simp only [alSet, if_neg hk, alKeys, List.map_cons, List.nodup_cons] at h ⊢
      refine ⟨fun hx => ?_, ih h.2⟩
      rcases (mem_alKeys_alSet rest k kv.1 v).mp hx with hm | he
      · exact h.1 hm
      · exact hk he

theorem contains_iff_mem (ks : List String) (k : String) :
    ks.contains k = true ↔ k ∈ ks := by
  induction ks with
  | nil => simp
  | cons a rest ih =>
    simp only [List.contains_cons, Bool.or_eq_true, beq_iff_eq, ih, List.mem_cons]

theorem keysNodupB_iff (ks : List String) : keysNodupB ks = true ↔ ks.Nodup := by
  induction ks with
  | nil => simp [keysNodupB]
  | cons k rest ih =>
    simp only [keysNodupB, Bool.and_eq_true, ih, List.nodup_cons, Bool.not_eq_true']
    constructor
    · rintro ⟨hc, hn⟩
      refine ⟨fun hm => ?_, hn⟩
      rw [(contains_iff_mem rest k).mpr hm] at hc
      exact absurd hc (by simp)
    · rintro ⟨hm, hn⟩
      refine ⟨?_, hn⟩
      by_cases hc : rest.contains k = true
      · exact absurd ((contains_iff_mem rest k).mp hc) hm
      · simpa using hc

theorem alGet_eq_none_of_not_mem_keys {α : Type} {kvs : List (String × α)}
    {k : String} (h : k ∉ alKeys kvs) : alGet kvs k = none := by
  induction kvs with
  | nil => rfl
  | cons kv rest ih =>
    simp only [alKeys, List.map_cons, List.mem_cons, not_or] at h
    simp only [alGet, if_neg (fun hh : kv.1 = k => h.1 hh.symm)]
    exact ih h.2

theorem alSets_append {α : Type} (init : List (String × α)) (a b : List (String × α)) :
    alSets init (a ++ b) = alSets (alSets init a) b := by
  simp [alSets, List.foldl_append]

theorem alGet_alSets {α : Type} (asgs : List (String × α))
    (init : List (String × α)) (k : String) :
    alGet (alSets init asgs) k =
      asgs.foldl (fun acc kv => if kv.1 = k then some kv.2 else acc) (alGet init k) := by
  induction asgs generalizing init with
  | nil => simp [alSets]
  | cons a rest ih =>
    show alGet (alSets (alSet init a.1 a.2) rest) k = _
    rw [ih]
    by_cases h : a.1 = k
    · simp [h, List.foldl, alGet_alSet_self]
    · simp [h, List.foldl, alGet_alSet_ne _ _ (fun hh => h hh.symm)]

theorem foldl_lastAssign {α β : Type} (l : List α) (p : α → Bool) (f : α → β)
    (init : Option β) :
    l.foldl (fun acc x => if p x then some (f x) else acc) init =
      match (l.filter p).getLast? with
      | some x => some (f x)
      | none => init := by
  induction l using List.reverseRecOn with
  | nil => simp
  | append_singleton xs x ih =>
    rw [List.foldl_append]
    by_cases h : p x
    · simp [h, List.filter_append]
    · simp [h, List.filter_append, ih]

theorem alGet_alSets_getLast {α : Type} (asgs : List (String × α)) (k : String) :
    alGet (alSets [] asgs) k =
      ((asgs.filter (fun kv => kv.1 = k)).getLast?).map Prod.snd := by
  rw [alGet_alSets]
  have : (alGet ([] : List (String × α)) k) = none := rfl
  rw [this]
  rw [show (fun acc (kv : String × α) => if kv.1 = k then some kv.2 else acc) =
    (fun acc kv => if (fun kv : String × α => decide (kv.1 = k)) kv = true
      then some ((fun kv : String × α => kv.2) kv) else acc) from by
    funext acc kv; by_cases h : kv.1 = k <;> simp [h]]
  rw [foldl_lastAssign asgs (fun kv => decide (kv.1 = k)) (fun kv => kv.2) none]
  cases hl : (asgs.filter (fun kv => decide (kv.1 = k))).getLast? <;> simp [hl]

end ClaudeSound

namespace ClaudeSound.Hooks

theorem validateSoundId_error_of_unsafe (s : String)
    (h1 : safeSoundIdTest s = false) :
    validateSoundId s = .error ("Invalid sound id: " ++ s) := by
  unfold validateSoundId
  rw [h1]
  simp

theorem validateSoundId_error_of_long (s : String) (h2 : 120 < jsLength s) :
    validateSoundId s = .error ("Invalid sound id: " ++ s) := by
  unfold validateSoundId
  have : decide (jsLength s > 120) = true := decide_eq_true h2
  rw [this]
  simp

theorem validateSoundId_ok (s : String) (h1 : safeSoundIdTest s = true)
    (h2 : jsLength s ≤ 120) : validateSoundId s = .ok () := by
  unfold validateSoundId
  rw [h1]
  have : decide (jsLength s > 120) = false := decide_eq_false (Nat.not_lt.mpr h2)
  rw [this]
  simp

theorem validateEventName_ok (e : String) (h : e ∈ HOOK_EVENTS) :
    validateEventName e = .ok () := by
  unfold validateEventName
  rw [(contains_iff_mem HOOK_EVENTS e).mpr h]
  simp

theorem validateEventName_error (e : String) (h : e ∉ HOOK_EVENTS) :
    validateEventName e = .error ("Invalid event name: " ++ e) := by
  unfold validateEventName
  have hc : HOOK_EVENTS.contains e = false := by
    by_cases hb : HOOK_EVENTS.contains e = true
    · exact absurd ((contains_iff_mem HOOK_EVENTS e).mp hb) h
    · simpa using hb
  rw [hc]
  simp

/-- C7: `validateSoundId` fails on every string containing a character
outside the safe class and on every string longer than 120 (in particular
on `a;rm -rf /`), succeeds on every non-empty safe string of length at
most 120 (in particular on `ring1`); `validateEventName` fails on every
string outside the 14-name enumeration (in particular on `NotARealEvent`)
and succeeds on each of the 14 names. -/
theorem C7_validators :
    (∀ s : String, (∃ c ∈ s.toList, isSafeSoundChar c = false) →
      validateSoundId s = .error ("Invalid sound id: " ++ s)) ∧
    (∀ s : String, 120 < jsLength s →
      validateSoundId s = .error ("Invalid sound id: " ++ s)) ∧
    validateSoundId "a;rm -rf /" = .error ("Invalid sound id: " ++ "a;rm -rf /") ∧
    (∀ s : String, s ≠ "" → (∀ c ∈ s.toList, isSafeSoundChar c = true) →
      jsLength s ≤ 120 → validateSoundId s = .ok ()) ∧
    validateSoundId "ring1" = .ok () ∧
    (∀ e : String, e ∉ HOOK_EVENTS →
      validateEventName e = .error ("Invalid event name: " ++ e)) ∧
    validateEventName "NotARealEvent" = .error ("Invalid event name: " ++ "NotARealEvent") ∧
    (∀ e ∈ HOOK_EVENTS, validateEventName e = .ok ()) := by
  refine ⟨?_, ?_, ?_, ?_, ?_, ?_, ?_, ?_⟩
  · rintro s ⟨c, hc, hf⟩
    apply validateSoundId_error_of_unsafe
    have hall : s.toList.all isSafeSoundChar = false :=
      List.all_eq_false.mpr ⟨c, hc, by simp [hf]⟩
    show (!s.isEmpty && s.toList.all isSafeSoundChar) = false
    rw [hall]
    simp
  · exact fun s h => validateSoundId_error_of_long s h
  · exact validateSoundId_error_of_unsafe _ (by decide)
  · intro s hne hall hlen
    apply validateSoundId_ok _ _ hlen
    have he : s.isEmpty = false := by
      by_cases hb : s.isEmpty = true
      · exact absurd ((String.isEmpty_iff s).mp hb) hne
      · simpa using hb
    show (!s.isEmpty && s.toList.all isSafeSoundChar) = true
    rw [he, List.all_eq_true.mpr hall]
    simp
  · exact validateSoundId_ok _ (by decide) (by decide)
  · exact fun e h => validateEventName_error e h
  · exact validateEventName_error _ (by decide)
  · exact fun e h => validateEventName_ok e h

theorem C7_validators_witness :
    validateSoundId "bad id" = .error ("Invalid sound id: " ++ "bad id") ∧
    validateSoundId (String.mk (List.replicate 121 'a')) =
      .error ("Invalid sound id: " ++ String.mk (List.replicate 121 'a')) ∧
    validateSoundId "common/pop" = .ok () ∧
    validateEventName "SessionStart" = .ok () ∧
    validateEventName "Bogus" = .error ("Invalid event name: " ++ "Bogus") :=
  ⟨C7_validators.1 "bad id" ⟨' ', by decide, by decide⟩,
   C7_validators.2.1 _ (by set_option maxRecDepth 4000 in decide),
   C7_validators.2.2.2.1 "common/pop" (by decide) (by decide) (by decide),
   C7_validators.2.2.2.2.2.2.2 "SessionStart" (by decide),
   C7_validators.2.2.2.2.2.1 "Bogus" (by decide)⟩

end ClaudeSound.Hooks

namespace ClaudeSound.Sounds

theorem buildSoundPathMap_eq_alSets (base customDir : String) (inp : CatalogInputs) :
    buildSoundPathMap base customDir inp =
      alSets [] (catalogAssignments base customDir inp) := by
  simp [buildSoundPathMap, catalogAssignments, alSets_append]

/-- C4 counterexample: the manifest (first source) maps `common/pop` to
`/base/pop.wav`, the `common/` directory (a later source) contributes the
same id with a different path, and the built index holds the later path:
the first-discovered mapping does not win. -/
theorem C4_counterexample :
    alGet (manifestAssignments "/base" collisionInputs.manifest) "common/pop" =
      some "/base/pop.wav" ∧
    alGet (subdirAssignments "/base" "common" collisionInputs.commonEntries)
      "common/pop" = some "/base/common/pop.mp3" ∧
    alGet (buildSoundPathMap "/base" "/custom" collisionInputs) "common/pop" =
      some "/base/common/pop.mp3" ∧
    ("/base/common/pop.mp3" : String) ≠ "/base/pop.wav" := by
  refine ⟨by rfl, by rfl, by rfl, by decide⟩

/-- C4 amended: the built index resolves every id to the path of its
last-discovered contribution: when several sources (or several files of
one source) contribute the same id, the later one silently overwrites the
earlier ones. -/
theorem C4_collision_last_wins (base customDir : String) (inp : CatalogInputs)
    (id : String) :
    alGet (buildSoundPathMap base customDir inp) id =
      (((catalogAssignments base customDir inp).filter
        (fun kv => kv.1 = id)).getLast?).map Prod.snd := by
  rw [buildSoundPathMap_eq_alSets, alGet_alSets_getLast]

end ClaudeSound.Sounds

namespace ClaudeSound.Tts

/-- C8: `generateTts` fails before any fetch on text that trims to empty
and on text whose trimmed length exceeds 200, and a malformed language
code is silently replaced by the default `en` in the one request a
successful synthesis performs. -/
theorem C8_tts_gating :
    (∀ text optsLang, jsTrim text = "" →
      generateTts text optsLang = .error "Text cannot be empty") ∧
    (∀ text optsLang, 200 < jsLength (jsTrim text) →
      generateTts text optsLang = .error "Text must be 200 characters or less") ∧
    (∀ lang, (jsLength lang < 2 ∨ 10 < jsLength lang ∨ langShapeTest lang = false) →
      validateLang lang = "en") ∧
    (∀ text lang req, generateTts text (some lang) = .ok req →
      req.lang = validateLang lang) := by
  refine ⟨?_, ?_, ?_, ?_⟩
  · intro text optsLang h
    unfold generateTts
    rw [h]
    simp
  · intro text optsLang h
    have hne : ¬ jsTrim text = "" := by
      intro he
      rw [he] at h
      simp [jsLength] at h
    unfold generateTts
    rw [if_neg hne, if_pos h]
  · intro lang h
    unfold validateLang
    rcases h with h | h | h
    · simp [decide_eq_true h]
    · have hd : decide (jsLength lang > 10) = true := decide_eq_true h
      simp [hd]
    · by_cases h1 : jsLength lang < 2
      · simp [decide_eq_true h1]
      · by_cases h2 : jsLength lang > 10
        · have hd : decide (jsLength lang > 10) = true := decide_eq_true h2
          simp [hd]
        · simp [decide_eq_false h1, decide_eq_false h2, h]
  · intro text lang req h
    unfold generateTts at h
    by_cases h1 : jsTrim text = ""
    · rw [if_pos h1] at h
      exact absurd h (by simp)
    · rw [if_neg h1] at h
      by_cases h2 : 200 < jsLength (jsTrim text)
      · rw [if_pos h2] at h
        exact absurd h (by simp)
      · rw [if_neg h2] at h
        simp only [Except.ok.injEq] at h
        rw [← h]
        simp

theorem C8_tts_gating_witness :
    generateTts " \t " none = .error "Text cannot be empty" ∧
    generateTts (String.mk (List.replicate 201 'a')) none =
      .error "Text must be 200 characters or less" ∧
    validateLang "x!" = "en" ∧
    ({ lang := "ko", text := "hi", fileName := "hi-2kh.mp3" } : TtsRequest).lang =
      validateLang "ko" :=
  ⟨C8_tts_gating.1 " \t " none (by decide),
   C8_tts_gating.2.1 _ none (by set_option maxRecDepth 8000 in decide),
   C8_tts_gating.2.2.1 "x!" (Or.inr (Or.inr (by decide))),
   C8_tts_gating.2.2.2 "hi" "ko" _ (by rfl)⟩

end ClaudeSound.Tts

namespace ClaudeSound

theorem mem_alSet {α : Type} {kvs : List (String × α)} {k : String} {v : α}
    {kv : String × α} (h : kv ∈ alSet kvs k v) : kv ∈ kvs ∨ kv = (k, v) := by
  induction kvs with
  | nil => simpa [alSet] using h
  | cons a rest ih =>
    by_cases hk : a.1 = k
    · simp only [alSet, if_pos hk] at h
      rcases List.mem_cons.mp h with h1 | h1
      · exact Or.inr h1
      · exact Or.inl (List.mem_cons_of_mem _ h1)
    · simp only [alSet, if_neg hk] at h
      rcases List.mem_cons.mp h with h1 | h1
      · exact Or.inl (h1 ▸ List.mem_cons_self _ _)
      · rcases ih h1 with h2 | h2
        · exact Or.inl (List.mem_cons_of_mem _ h2)
        · exact Or.inr h2

end ClaudeSound

namespace ClaudeSound.Hooks

/-- The safety invariant maintained by the extraction scan. -/
def gemSafe (kv : String × String) : Prop :=
  kv.1 ∈ HOOK_EVENTS ∧ safeSoundIdTest kv.2 = true ∧ jsLength kv.2 ≤ 120

theorem gemHandler_mem {e : String} {map : List (String × String)} {h : JVal}
    {kv : String × String} (he : e ∈ HOOK_EVENTS)
    (hm : kv ∈ gemHandler e map h) : kv ∈ map ∨ gemSafe kv := by
  unfold gemHandler at hm
  split at hm
  · split at hm
    · split at hm
      · split at hm
        · rename_i c _ soundId _ hcond
          rcases mem_alSet hm with h1 | h1
          · exact Or.inl h1
          · subst h1
            simp only [Bool.and_eq_true, decide_eq_true_eq] at hcond
            exact Or.inr ⟨he, hcond.1, hcond.2⟩
        · exact Or.inl hm
      · exact Or.inl hm
    · exact Or.inl hm
  · exact Or.inl hm

theorem gemHandlers_fold_mem {e : String} (he : e ∈ HOOK_EVENTS)
    (handlers : List JVal) :
    ∀ map kv, kv ∈ handlers.foldl (gemHandler e) map → kv ∈ map ∨ gemSafe kv := by
  induction handlers with
  | nil => exact fun map kv h => Or.inl h
  | cons x rest ih =>
    intro map kv h
    rcases ih (gemHandler e map x) kv h with h1 | h1
    · exact gemHandler_mem he h1
    · exact Or.inr h1

theorem gemGroup_mem {e : String} {map : List (String × String)} {g : JVal}
    {kv : String × String} (he : e ∈ HOOK_EVENTS)
    (hm : kv ∈ gemGroup e map g) : kv ∈ map ∨ gemSafe kv := by
  unfold gemGroup at hm
  split at hm
  · exact gemHandlers_fold_mem he _ map kv hm
  · exact Or.inl hm

theorem gemGroups_fold_mem {e : String} (he : e ∈ HOOK_EVENTS)
    (groups : List JVal) :
    ∀ map kv, kv ∈ groups.foldl (gemGroup e) map → kv ∈ map ∨ gemSafe kv := by
  induction groups with
  | nil => exact fun map kv h => Or.inl h
  | cons x rest ih =>
    intro map kv h
    rcases ih (gemGroup e map x) kv h with h1 | h1
    · exact gemGroup_mem he h1
    · exact Or.inr h1

theorem gemEvent_mem {map : List (String × String)} {kvp : String × JVal}
    {kv : String × String} (hm : kv ∈ gemEvent map kvp) :
    kv ∈ map ∨ gemSafe kv := by
  unfold gemEvent at hm
  split at hm
  · split at hm
    · rename_i hc
      exact gemGroups_fold_mem ((contains_iff_mem _ _).mp hc) _ map kv hm
    · exact Or.inl hm
  · exact Or.inl hm

theorem gemEvents_fold_mem (entries : List (String × JVal)) :
    ∀ map kv, kv ∈ entries.foldl gemEvent map → kv ∈ map ∨ gemSafe kv := by
  induction entries with
  | nil => exact fun map kv h => Or.inl h
  | cons x rest ih =>
    intro map kv h
    rcases ih (gemEvent map x) kv h with h1 | h1
    · exact gemEvent_mem h1
    · exact Or.inr h1

/-- C10: the extraction is total and safe on arbitrary inputs: it returns
the empty mapping on null settings, on a missing or non-object `hooks`,
and every entry of its result, for every input whatsoever, has one of the
14 event names as key and a validated safe sound identifier as value
(malformed shapes contribute nothing; the function never throws, which the
shallow embedding reflects by being a total function). -/
theorem C10_extraction_total :
    getExistingManagedMappings JVal.null = [] ∧
    (∀ s : String, getExistingManagedMappings (JVal.obj [("hooks", JVal.str s)]) = []) ∧
    (∀ n : Int, getExistingManagedMappings (JVal.obj [("hooks", JVal.num n)]) = []) ∧
    getExistingManagedMappings (JVal.obj [("hooks", JVal.null)]) = [] ∧
    (∀ settings : JVal, ∀ kv ∈ getExistingManagedMappings settings,
      kv.1 ∈ HOOK_EVENTS ∧ safeSoundIdTest kv.2 = true ∧ jsLength kv.2 ≤ 120) := by
  refine ⟨rfl, fun s => rfl, fun n => rfl, rfl, ?_⟩
  intro settings kv hkv
  unfold getExistingManagedMappings at hkv
  have hbase : kv ∈ ([] : List (String × String)) ∨ gemSafe kv → gemSafe kv := by
    rintro (h | h)
    · simp at h
    · exact h
  split at hkv
  · exact hbase (gemEvents_fold_mem _ [] kv hkv)
  · exact hbase (gemEvents_fold_mem _ [] kv hkv)
  · simp at hkv

theorem C10_extraction_total_witness :
    (("Stop", "ring1") : String × String).1 ∈ HOOK_EVENTS ∧
    safeSoundIdTest ("Stop", "ring1").2 = true ∧
    jsLength ("Stop", "ring1").2 ≤ 120 :=
  C10_extraction_total.2.2.2.2
    (JVal.obj [("hooks", JVal.obj [("Stop", JVal.arr [JVal.obj [("hooks",
      JVal.arr [JVal.obj [("command", JVal.str
        "npx --yes claude-sound@latest play --event Stop --sound ring1 --managed-by claude-sound")]])]])])])
    ("Stop", "ring1") (by decide)

end ClaudeSound.Hooks

namespace ClaudeSound.Hooks

theorem stripGroup_eq_none_of_all_managed {g : JVal}
    (h : ∀ hd ∈ handlersOf g, isManagedCommand (hd.getField "command") = true) :
    stripGroup g = none := by
  unfold stripGroup
  have hk : (handlersOf g).filter
      (fun hd => !isManagedCommand (hd.getField "command")) = [] := by
    rw [List.filter_eq_nil]
    intro a ha
    simp [h a ha]
  unfold handlersOf at hk
  split
  · rename_i hs heq
    rw [heq] at hk
    simp only [hk]
    rfl
  · simp

theorem stripHooks_eq_nil_of_all_managed {hkvs : List (String × JVal)}
    (hall : allManagedHooksB hkvs = true) : stripHooks hkvs = [] := by
  unfold stripHooks
  rw [List.filterMap_eq_nil]
  intro kv hkv
  have hv := (List.all_eq_true.mp hall) kv hkv
  unfold stripEntry
  split
  · rename_i gs heq
    rw [heq] at hv
    simp only at hv
    have hng : gs.filterMap stripGroup = [] := by
      rw [List.filterMap_eq_nil]
      intro g hg
      have := (List.all_eq_true.mp hv) g hg
      exact stripGroup_eq_none_of_all_managed
        (fun hd hhd => by simpa using (List.all_eq_true.mp this) hd hhd)
    simp [hng]
  · exfalso
    rename_i hne
    cases hx : kv.2 <;> rw [hx] at hv
    case arr gs => exact hne gs hx
    all_goals simp at hv

/-- C5: reconciling a document whose `hooks` object holds, per event key,
only arrays of groups all of whose handlers carry the ownership marker
with the empty mapping yields the document without its `hooks` key, every
other top-level key keeping its value. -/
theorem C5_empty_mapping_cleanup (kvs hkvs : List (String × JVal))
    (hh : alGet kvs "hooks" = some (.obj hkvs))
    (hall : allManagedHooksB hkvs = true) :
    applyMappingsToSettings (.obj kvs) [] = .ok (.obj (alDel kvs "hooks")) ∧
    alGet (alDel kvs "hooks") "hooks" = none ∧
    (∀ k, k ≠ "hooks" → alGet (alDel kvs "hooks") k = alGet kvs k) := by
  refine ⟨?_, alGet_alDel_self kvs "hooks", fun k hk => alGet_alDel_ne kvs hk⟩
  unfold applyMappingsToSettings hooksSpread
  simp only [JVal.ownEntries, hh, JVal.truthy, if_true,
    stripHooks_eq_nil_of_all_managed hall]
  rfl

theorem C5_empty_mapping_cleanup_witness :
    applyMappingsToSettings
      (.obj [("model", .str "m"),
             ("hooks", .obj [("Stop", .arr [.obj [("hooks", .arr [.obj
               [("command", .str ("play " ++ MANAGED_TOKEN))]])]])])])
      [] =
      .ok (.obj [("model", .str "m")]) :=
  (C5_empty_mapping_cleanup _ _ (by rfl) (by decide)).1

end ClaudeSound.Hooks

namespace ClaudeSound.Hooks

theorem gemHandler_eq (e : String) (map : List (String × String)) (h : JVal) :
    gemHandler e map h =
      match handlerAssignment e h with
      | some kv => alSet map kv.1 kv.2
      | none => map := by
  unfold gemHandler handlerAssignment handlerManagedCommand cmdValidId
  cases hc : h.getField "command" with
  | none => rfl
  | some c =>
    cases c <;> try rfl
    rename_i s
    by_cases hi : strIncludes s MANAGED_TOKEN
    · simp only [hi, if_true]
      cases hx : extractManagedSoundId s with
      | none => rfl
      | some soundId =>
        by_cases hv : (safeSoundIdTest soundId && decide (jsLength soundId ≤ 120)) = true
        · simp [hv]
        · simp only [Bool.not_eq_true] at hv
          simp [hv]
    · simp only [Bool.not_eq_true] at hi
      simp [hi]

theorem foldl_step_alSets {β : Type} (step : List (String × String) → β →
      List (String × String)) (f : β → List (String × String))
    (hstep : ∀ m b, step m b = alSets m (f b)) (l : List β) :
    ∀ map, l.foldl step map = alSets map (l.flatMap f) := by
  induction l with
  | nil => intro map; simp [alSets]
  | cons x rest ih =>
    intro map
    show rest.foldl step (step map x) = _
    rw [ih, hstep, List.flatMap_cons, alSets_append]

theorem gemGroup_eq_alSets (e : String) (map : List (String × String)) (g : JVal) :
    gemGroup e map g =
      alSets map ((handlersOf g).filterMap (handlerAssignment e)) := by
  have hh : ∀ m h, gemHandler e m h =
      alSets m ((fun hd => (handlerAssignment e hd).toList) h) := by
    intro m h
    rw [gemHandler_eq]
    show _ = alSets m (handlerAssignment e h).toList
    cases handlerAssignment e h with
    | none => rfl
    | some kv => rfl
  rw [List.filterMap_eq_flatMap_toList]
  unfold gemGroup
  cases hc : g.getField "hooks" with
  | none =>
    have hz : handlersOf g = [] := by unfold handlersOf; rw [hc]
    rw [hz]
    rfl
  | some v =>
    cases v
    case arr hs =>
      have hhs : handlersOf g = hs := by unfold handlersOf; rw [hc]
      rw [hhs]
      show List.foldl (gemHandler e) map hs = _
      exact foldl_step_alSets (gemHandler e)
        (fun hd => (handlerAssignment e hd).toList) hh hs map
    all_goals
      have hz : handlersOf g = [] := by unfold handlersOf; rw [hc]
    all_goals rw [hz]
    all_goals rfl

theorem gemEvent_eq_alSets (map : List (String × String)) (kvp : String × JVal) :
    gemEvent map kvp = alSets map (eventAssignments kvp) := by
  unfold gemEvent eventAssignments
  cases kvp.2 <;> try rfl
  rename_i groups
  by_cases hc : HOOK_EVENTS.contains kvp.1 = true
  · rw [hc]
    simp only [if_true]
    exact foldl_step_alSets (gemGroup kvp.1)
      (fun g => (handlersOf g).filterMap (handlerAssignment kvp.1))
      (fun m g => gemGroup_eq_alSets kvp.1 m g) groups map
  · have hcf : HOOK_EVENTS.contains kvp.1 = false := by simpa using hc
    rw [hcf]
    rfl

theorem gem_eq_alSets (settings : JVal) :
    getExistingManagedMappings settings = alSets [] (gemAssignments settings) := by
  unfold getExistingManagedMappings gemAssignments hooksEntriesOf
  cases hf : settings.getField "hooks" with
  | none => rfl
  | some v =>
    cases v <;> try rfl
    case obj kvs =>
      exact foldl_step_alSets gemEvent eventAssignments gemEvent_eq_alSets kvs []
    case arr xs =>
      exact foldl_step_alSets gemEvent eventAssignments gemEvent_eq_alSets
        ((JVal.arr xs).ownEntries) []

theorem alGet_gem (settings : JVal) (e : String) :
    alGet (getExistingManagedMappings settings) e =
      (((gemAssignments settings).filter (fun kv => kv.1 = e)).getLast?).map
        Prod.snd := by
  rw [gem_eq_alSets, alGet_alSets_getLast]

theorem handlerAssignment_eq_comp (e : String) (h : JVal) :
    handlerAssignment e h =
      ((handlerManagedCommand h).bind cmdValidId).map (fun s => (e, s)) := by
  unfold handlerAssignment
  cases handlerManagedCommand h <;> rfl

theorem handlerAssignment_key {e : String} {h : JVal} {kv : String × String}
    (hx : handlerAssignment e h = some kv) : kv.1 = e := by
  rw [handlerAssignment_eq_comp] at hx
  cases hb : (handlerManagedCommand h).bind cmdValidId with
  | none => rw [hb] at hx; exact absurd hx (by simp)
  | some s =>
    rw [hb] at hx
    simp only [Option.map_some'] at hx
    have h2 : (e, s) = kv := Option.some.inj hx
    rw [← h2]

theorem eventAssignments_key {kvp : String × JVal} {kv : String × String}
    (hm : kv ∈ eventAssignments kvp) : kv.1 = kvp.1 := by
  unfold eventAssignments at hm
  split at hm
  · split at hm
    · rcases List.mem_flatMap.mp hm with ⟨g, _, hg⟩
      rcases List.mem_filterMap.mp hg with ⟨h, _, hh⟩
      exact handlerAssignment_key hh
    · simp at hm
  · simp at hm

theorem group_filterMap_eq (e : String) (g : JVal) :
    (handlersOf g).filterMap (handlerAssignment e) =
      (((handlersOf g).filterMap handlerManagedCommand).filterMap
        cmdValidId).map (fun s => (e, s)) := by
  rw [List.filterMap_filterMap, List.map_filterMap]
  congr 1
  funext hd
  rw [handlerAssignment_eq_comp]

theorem gemAssignments_filter_eq (settings : JVal) (e : String) :
    (gemAssignments settings).filter (fun kv => kv.1 = e) =
      ((managedCommandsFor settings e).filterMap cmdValidId).map
        (fun s => (e, s)) := by
  unfold gemAssignments managedCommandsFor
  induction hooksEntriesOf settings with
  | nil => rfl
  | cons kvp rest ih =>
    rw [List.flatMap_cons, List.flatMap_cons, List.filter_append,
      List.filterMap_append, List.map_append, ih]
    congr 1
    by_cases hk : kvp.1 = e
    · rw [if_pos hk]
      rw [List.filter_eq_self.mpr
        (fun kv hkv => by simp [eventAssignments_key hkv, hk])]
      unfold eventAssignments
      cases hv : kvp.2 <;> try rfl
      by_cases hc : HOOK_EVENTS.contains kvp.1 = true
      · rw [hc]
        simp only [if_true]
        rw [List.filterMap_flatMap, List.map_flatMap]
        congr 1
        funext g
        rw [← hk, group_filterMap_eq]
      · have hcf : HOOK_EVENTS.contains kvp.1 = false := by simpa using hc
        rw [hcf]
        rfl
    · rw [if_neg hk]
      rw [List.filter_eq_nil_iff.mpr
        (fun kv hkv => by simp [eventAssignments_key hkv, hk])]
      rfl

theorem filterMap_getLast_of_isSome {α β : Type} (g : α → Option β) (L : List α)
    (hall : ∀ c ∈ L, (g c).isSome = true) :
    (L.filterMap g).getLast? =
      match L.getLast? with
      | some c => g c
      | none => none := by
  induction L using List.reverseRecOn with
  | nil => rfl
  | append_singleton xs x ih =>
    rw [List.filterMap_append, List.getLast?_concat]
    obtain ⟨y, hy⟩ := Option.isSome_iff_exists.mp (hall x (by simp))
    simp [hy, List.getLast?_concat]

/-- C6: when several managed handlers exist for the same event, each
carrying an extractable valid sound id, the extraction returns for that
event the id of the last such handler in scan order (entries, then groups,
then handlers, in array order), and it cannot fail (it is a total
function). -/
theorem C6_last_write_wins (settings : JVal) (e : String)
    (hne : managedCommandsFor settings e ≠ [])
    (hall : ∀ c ∈ managedCommandsFor settings e, (cmdValidId c).isSome = true) :
    ∃ c, (managedCommandsFor settings e).getLast? = some c ∧
      alGet (getExistingManagedMappings settings) e = cmdValidId c := by
  obtain ⟨c, hc⟩ : ∃ c, (managedCommandsFor settings e).getLast? = some c := by
    cases hl : (managedCommandsFor settings e).getLast? with
    | none => exact absurd (List.getLast?_eq_none.mp hl) hne
    | some c => exact ⟨c, rfl⟩
  refine ⟨c, hc, ?_⟩
  rw [alGet_gem, gemAssignments_filter_eq, List.getLast?_map,
    filterMap_getLast_of_isSome _ _ hall, hc]
  have hcm : c ∈ managedCommandsFor settings e := by
    rcases List.mem_getLast?_eq_getLast (Option.mem_def.mpr hc) with ⟨hne2, hce⟩
    rw [hce]
    exact List.getLast_mem hne2
  obtain ⟨y, hy⟩ := Option.isSome_iff_exists.mp (hall c hcm)
  simp [hy]

theorem C6_last_write_wins_witness :
    ∃ c, (managedCommandsFor
      (JVal.obj [("hooks", JVal.obj [("Stop", JVal.arr
        [JVal.obj [("hooks", JVal.arr
          [JVal.obj [("command", JVal.str
            ("a --sound ring1 " ++ MANAGED_TOKEN))],
           JVal.obj [("command", JVal.str
            ("a --sound ring2 " ++ MANAGED_TOKEN))]])]])])])
      "Stop").getLast? = some c ∧
    alGet (getExistingManagedMappings
      (JVal.obj [("hooks", JVal.obj [("Stop", JVal.arr
        [JVal.obj [("hooks", JVal.arr
          [JVal.obj [("command", JVal.str
            ("a --sound ring1 " ++ MANAGED_TOKEN))],
           JVal.obj [("command", JVal.str
            ("a --sound ring2 " ++ MANAGED_TOKEN))]])]])])])) "Stop" =
      cmdValidId c :=
  C6_last_write_wins _ "Stop" (by decide) (by decide)

end ClaudeSound.Hooks

namespace ClaudeSound

theorem wfList_iff (xs : List JVal) :
    JVal.wfList xs = true ↔ ∀ x ∈ xs, x.wfB = true := by
  induction xs with
  | nil => simp [JVal.wfList]
  | cons x rest ih => simp [JVal.wfList, ih]

theorem wfFields_iff (kvs : List (String × JVal)) :
    JVal.wfFields kvs = true ↔ ∀ kv ∈ kvs, (kv.2 : JVal).wfB = true := by
  induction kvs with
  | nil => simp [JVal.wfFields]
  | cons kv rest ih => simp [JVal.wfFields, ih]

theorem wfB_str_char (c : Char) : (JVal.str (String.mk [c])).wfB = true := rfl

theorem wfB_ownEntries_values {v : JVal} (h : v.wfB = true) :
    ∀ kv ∈ v.ownEntries, (kv.2 : JVal).wfB = true := by
  intro kv hkv
  cases v with
  | obj kvs =>
    simp only [JVal.wfB, Bool.and_eq_true] at h
    exact (wfFields_iff kvs).mp h.2 kv hkv
  | arr xs =>
    simp only [JVal.wfB, Bool.and_eq_true] at h
    simp only [JVal.ownEntries, List.mem_map] at hkv
    obtain ⟨p, hp, hpe⟩ := hkv
    rw [List.enum_eq_zip_range] at hp
    have hx : p.2 ∈ xs := (List.of_mem_zip (by exact hp)).2
    rw [← hpe]
    exact (wfList_iff xs).mp h.2 p.2 hx
  | str s =>
    simp only [JVal.ownEntries, List.mem_map] at hkv
    obtain ⟨p, _, hpe⟩ := hkv
    rw [← hpe]
    exact wfB_str_char p.2
  | null => simp [JVal.ownEntries] at hkv
  | bool b => simp [JVal.ownEntries] at hkv
  | num n => simp [JVal.ownEntries] at hkv

theorem wfB_ownEntries_keys_nodup {v : JVal} (h : v.wfB = true) :
    (alKeys v.ownEntries).Nodup := by
  cases v with
  | obj kvs =>
    simp only [JVal.wfB, Bool.and_eq_true] at h
    exact (keysNodupB_iff _).mp h.1
  | arr xs =>
    simp only [JVal.wfB, Bool.and_eq_true] at h
    exact (keysNodupB_iff _).mp h.1
  | str s => exact (keysNodupB_iff _).mp h
  | null => exact List.nodup_nil
  | bool b => exact List.nodup_nil
  | num n => exact List.nodup_nil

end ClaudeSound

namespace ClaudeSound.Hooks

theorem buildManagedCommand_ok {e s : String} (he : e ∈ HOOK_EVENTS)
    (hs : safeSoundIdTest s = true) (hl : jsLength s ≤ 120) :
    buildManagedCommand e s = .ok (managedCommandString e s) := by
  unfold buildManagedCommand managedCommandString
  rw [validateEventName_ok e he, validateSoundId_ok s hs hl]
  rfl

/-- Validity of one mapping entry, the propositional form. -/
def validEntry (em : String × String) : Prop :=
  em.1 ∈ HOOK_EVENTS ∧
    (em.2 = "" ∨ (safeSoundIdTest em.2 = true ∧ jsLength em.2 ≤ 120))

theorem validMappingB_spec {m : List (String × String)}
    (h : validMappingB m = true) :
    (m.map Prod.fst).Nodup ∧ ∀ em ∈ m, validEntry em := by
  unfold validMappingB at h
  simp only [Bool.and_eq_true] at h
  refine ⟨(keysNodupB_iff _).mp h.1, ?_⟩
  intro em hem
  have := (List.all_eq_true.mp h.2) em hem
  simp only [Bool.and_eq_true, Bool.or_eq_true, beq_iff_eq, decide_eq_true_eq] at this
  exact ⟨(contains_iff_mem _ _).mp this.1, this.2⟩

theorem applyOne_eq_pure {hkvs : List (String × JVal)} {em : String × String}
    (hv : validEntry em) : applyOne hkvs em = .ok (applyOnePure hkvs em) := by
  unfold applyOne applyOnePure
  by_cases hz : em.2 = ""
  · simp [hz]
  · rcases hv.2 with hv2 | hv2
    · exact absurd hv2 hz
    · rw [if_neg hz, if_neg hz]
      show (buildManagedCommand em.1 em.2).bind _ = _
      rw [buildManagedCommand_ok hv.1 hv2.1 hv2.2]
      show Except.ok (alSet hkvs em.1 (.arr ((match alGet hkvs em.1 with
        | some (.arr gs) => gs
        | _ => []) ++ [mkGroup (managedCommandString em.1 em.2)]))) = _
      rfl

theorem applyAll_eq_pure {m : List (String × String)}
    (hv : ∀ em ∈ m, validEntry em) (hkvs : List (String × JVal)) :
    applyAll hkvs m = .ok (applyAllPure hkvs m) := by
  induction m generalizing hkvs with
  | nil => rfl
  | cons em rest ih =>
    unfold applyAll applyAllPure
    rw [List.foldlM_cons, applyOne_eq_pure (hv em (List.mem_cons_self _ _))]
    show applyAll (applyOnePure hkvs em) rest = _
    exact ih (fun x hx => hv x (List.mem_cons_of_mem _ hx)) _

end ClaudeSound.Hooks

namespace ClaudeSound

theorem filterMap_fixed {α : Type} {f : α → Option α} {l : List α}
    (h : ∀ x ∈ l, f x = some x) : l.filterMap f = l := by
  induction l with
  | nil => rfl
  | cons x rest ih =>
    rw [List.filterMap_cons, h x (List.mem_cons_self _ _),
      ih (fun y hy => h y (List.mem_cons_of_mem _ hy))]

theorem alKeys_filterMap_sublist {α β : Type}
    (f : (String × α) → Option (String × β))
    (hf : ∀ kv x, f kv = some x → x.1 = kv.1) (l : List (String × α)) :
    List.Sublist (alKeys (l.filterMap f)) (alKeys l) := by
  induction l with
  | nil => simp [alKeys]
  | cons kv rest ih =>
    rw [List.filterMap_cons]
    cases hx : f kv with
    | none =>
      show List.Sublist (alKeys (rest.filterMap f)) (alKeys (kv :: rest))
      simp only [alKeys, List.map_cons]
      exact List.Sublist.cons _ ih
    | some x =>
      show List.Sublist (alKeys (x :: rest.filterMap f)) (alKeys (kv :: rest))
      simp only [alKeys, List.map_cons]
      rw [hf kv x hx]
      exact List.Sublist.cons₂ _ ih

theorem mem_alKeys_of_alGet_isSome {α : Type} {kvs : List (String × α)}
    {k : String} {v : α} (h : alGet kvs k = some v) : k ∈ alKeys kvs := by
  have := alGet_mem h
  simp only [alKeys, List.mem_map]
  exact ⟨(k, v), this, rfl⟩

end ClaudeSound

namespace ClaudeSound.Hooks

theorem stripEntry_key (kv : String × JVal) (x : String × JVal)
    (h : stripEntry kv = some x) : x.1 = kv.1 := by
  unfold stripEntry at h
  split at h
  · rename_i groups heq
    by_cases hng : (groups.filterMap stripGroup).isEmpty = true
    · simp only [hng, if_true] at h
      exact absurd h (by simp)
    · have hf : (groups.filterMap stripGroup).isEmpty = false := by simpa using hng
      simp only [hf, Bool.false_eq_true, if_false] at h
      rw [← Option.some.inj h]
  · rw [← Option.some.inj h]

theorem alKeys_stripHooks_sublist (hkvs : List (String × JVal)) :
    List.Sublist (alKeys (stripHooks hkvs)) (alKeys hkvs) :=
  alKeys_filterMap_sublist stripEntry stripEntry_key hkvs

theorem nodup_alKeys_stripHooks {hkvs : List (String × JVal)}
    (h : (alKeys hkvs).Nodup) : (alKeys (stripHooks hkvs)).Nodup :=
  List.Nodup.sublist (alKeys_stripHooks_sublist hkvs) h

theorem stripEntryVal_eq_map (kv : String × JVal) :
    stripEntryVal (some kv.2) = (stripEntry kv).map Prod.snd := by
  unfold stripEntryVal stripEntry
  cases hv : kv.2 with
  | arr gs =>
    by_cases hng : (gs.filterMap stripGroup).isEmpty = true
    · simp [hng]
    · have hngf : (gs.filterMap stripGroup).isEmpty = false := by simpa using hng
      simp [hngf]
  | null => rfl
  | bool b => rfl
  | num n => rfl
  | str s => rfl
  | obj fields => rfl

theorem alGet_stripHooks {hkvs : List (String × JVal)}
    (hnd : (alKeys hkvs).Nodup) (e : String) :
    alGet (stripHooks hkvs) e = stripEntryVal (alGet hkvs e) := by
  induction hkvs with
  | nil => rfl
  | cons kv rest ih =>
    simp only [alKeys, List.map_cons, List.nodup_cons] at hnd
    unfold stripHooks
    rw [List.filterMap_cons]
    by_cases hk : kv.1 = e
    · have hget : alGet (kv :: rest) e = some kv.2 := by
        simp [alGet, hk]
      rw [hget]
      cases hs : stripEntry kv with
      | some x =>
        have hkey : x.1 = e := by rw [stripEntry_key kv x hs, hk]
        have : alGet (x :: rest.filterMap stripEntry) e = some x.2 := by
          simp [alGet, hkey]
        rw [this, stripEntryVal_eq_map kv, hs]
        rfl
      | none =>
        rw [stripEntryVal_eq_map kv, hs]
        have hnm : e ∉ alKeys (stripHooks rest) := by
          intro hmem
          exact hnd.1 (hk ▸ (alKeys_stripHooks_sublist rest).subset hmem)
        show alGet (stripHooks rest) e = none
        exact alGet_eq_none_of_not_mem_keys hnm
    · have hget : alGet (kv :: rest) e = alGet rest e := by
        simp [alGet, hk]
      rw [hget]
      cases hs : stripEntry kv with
      | some x =>
        have hkey : ¬ x.1 = e := by rw [stripEntry_key kv x hs]; exact hk
        have : alGet (x :: rest.filterMap stripEntry) e =
            alGet (rest.filterMap stripEntry) e := by
          simp [alGet, hkey]
        rw [this]
        exact ih hnd.2
      | none => exact ih hnd.2

theorem stripGroup_restrip {g g' : JVal} (h : stripGroup g = some g') :
    stripGroup g' = some g' := by
  unfold stripGroup at h
  set handlers := (match g.getField "hooks" with
    | some (.arr hs) => hs
    | _ => []) with hh
  set kept := handlers.filter
    (fun hd => !isManagedCommand (hd.getField "command")) with hkept
  by_cases hke : kept.isEmpty = true
  · rw [if_pos hke] at h
    exact absurd h (by simp)
  · rw [if_neg hke] at h
    have hg' : g' = .obj (alSet g.ownEntries "hooks" (.arr kept)) :=
      (Option.some.inj h).symm
    have hfield : g'.getField "hooks" = some (.arr kept) := by
      rw [hg']
      show alGet (alSet g.ownEntries "hooks" (.arr kept)) "hooks" = _
      exact alGet_alSet_self _ _ _
    have hkept2 : kept.filter
        (fun hd => !isManagedCommand (hd.getField "command")) = kept := by
      rw [hkept, List.filter_filter]
      apply List.filter_congr
      intro x hx
      simp
    unfold stripGroup
    rw [hfield]
    show (if (kept.filter fun hd => !isManagedCommand (hd.getField "command")).isEmpty
      then none
      else some (JVal.obj (alSet g'.ownEntries "hooks"
        (JVal.arr (kept.filter fun hd =>
          !isManagedCommand (hd.getField "command")))))) = some g'
    rw [hkept2, if_neg (by simp [hke])]
    rw [hg']
    show some (JVal.obj (alSet (alSet g.ownEntries "hooks" (JVal.arr kept)) "hooks"
      (JVal.arr kept))) = _
    rw [alSet_alSet_same]

theorem stripEntryVal_idem (o : Option JVal) :
    stripEntryVal (stripEntryVal o) = stripEntryVal o := by
  cases o with
  | none => rfl
  | some v =>
    cases v with
    | arr gs =>
      show stripEntryVal (stripEntryVal (some (.arr gs))) = _
      unfold stripEntryVal
      by_cases hng : (gs.filterMap stripGroup).isEmpty = true
      · simp [hng]
      · have hngf : (gs.filterMap stripGroup).isEmpty = false := by simpa using hng
        simp only [hngf]
        have hfix : (gs.filterMap stripGroup).filterMap stripGroup =
            gs.filterMap stripGroup := by
          apply filterMap_fixed
          intro g' hg'
          rcases List.mem_filterMap.mp hg' with ⟨g, _, hgg⟩
          exact stripGroup_restrip hgg
        simp [hfix, hngf]
    | null => rfl
    | bool b => rfl
    | num n => rfl
    | str s => rfl
    | obj fields => rfl

end ClaudeSound.Hooks

namespace ClaudeSound.Hooks

theorem alGet_applyOnePure_ne {hkvs : List (String × JVal)} {em : String × String}
    {e : String} (h : e ≠ em.1) :
    alGet (applyOnePure hkvs em) e = alGet hkvs e := by
  unfold applyOnePure
  by_cases hz : em.2 = ""
  · rw [if_pos hz]
  · rw [if_neg hz]
    exact alGet_alSet_ne _ _ h

theorem alGet_applyAllPure_not_mem {m : List (String × String)}
    {e : String} (h : e ∉ m.map Prod.fst) (hkvs : List (String × JVal)) :
    alGet (applyAllPure hkvs m) e = alGet hkvs e := by
  induction m generalizing hkvs with
  | nil => rfl
  | cons em rest ih =>
    simp only [List.map_cons, List.mem_cons, not_or] at h
    show alGet (applyAllPure (applyOnePure hkvs em) rest) e = _
    rw [ih h.2, alGet_applyOnePure_ne h.1]

theorem alGet_applyAllPure_mem {m : List (String × String)} {e s : String}
    (hnd : (m.map Prod.fst).Nodup) (hmem : (e, s) ∈ m) (hs : ¬ s = "")
    (hkvs : List (String × JVal)) :
    alGet (applyAllPure hkvs m) e =
      some (.arr (egs (alGet hkvs e) ++ [mkGroup (managedCommandString e s)])) := by
  induction m generalizing hkvs with
  | nil => simp at hmem
  | cons em rest ih =>
    simp only [List.map_cons, List.nodup_cons] at hnd
    show alGet (applyAllPure (applyOnePure hkvs em) rest) e = _
    rcases List.mem_cons.mp hmem with he | he
    · have hkey : e ∉ rest.map Prod.fst := by
        rw [← he] at hnd
        exact hnd.1
      rw [alGet_applyAllPure_not_mem hkey, ← he]
      unfold applyOnePure
      rw [if_neg hs]
      exact alGet_alSet_self _ _ _
    · have hker : e ∈ rest.map Prod.fst := List.mem_map.mpr ⟨(e, s), he, rfl⟩
      have hne : e ≠ em.1 := fun hh => hnd.1 (hh ▸ hker)
      rw [ih hnd.2 he, alGet_applyOnePure_ne hne]

theorem alGet_applyAllPure_mem_empty {m : List (String × String)} {e : String}
    (hnd : (m.map Prod.fst).Nodup) (hmem : (e, "") ∈ m)
    (hkvs : List (String × JVal)) :
    alGet (applyAllPure hkvs m) e = alGet hkvs e := by
  induction m generalizing hkvs with
  | nil => rfl
  | cons em rest ih =>
    simp only [List.map_cons, List.nodup_cons] at hnd
    show alGet (applyAllPure (applyOnePure hkvs em) rest) e = _
    rcases List.mem_cons.mp hmem with he | he
    · have hkey : e ∉ rest.map Prod.fst := by
        rw [← he] at hnd
        exact hnd.1
      rw [alGet_applyAllPure_not_mem hkey, ← he]
      unfold applyOnePure
      rw [if_pos rfl]
    · have hker : e ∈ rest.map Prod.fst := List.mem_map.mpr ⟨(e, ""), he, rfl⟩
      have hne : e ≠ em.1 := fun hh => hnd.1 (hh ▸ hker)
      rw [ih hnd.2 he, alGet_applyOnePure_ne hne]

theorem nodup_alKeys_applyOnePure {hkvs : List (String × JVal)}
    {em : String × String} (h : (alKeys hkvs).Nodup) :
    (alKeys (applyOnePure hkvs em)).Nodup := by
  unfold applyOnePure
  by_cases hz : em.2 = ""
  · rw [if_pos hz]; exact h
  · rw [if_neg hz]; exact nodup_alKeys_alSet _ _ h

theorem nodup_alKeys_applyAllPure {m : List (String × String)}
    {hkvs : List (String × JVal)} (h : (alKeys hkvs).Nodup) :
    (alKeys (applyAllPure hkvs m)).Nodup := by
  induction m generalizing hkvs with
  | nil => exact h
  | cons em rest ih => exact ih (nodup_alKeys_applyOnePure h)

theorem alSet_ne_nil {α : Type} (kvs : List (String × α)) (k : String) (v : α) :
    alSet kvs k v ≠ [] := by
  cases kvs with
  | nil => simp [alSet]
  | cons kv rest =>
    by_cases h : kv.1 = k
    · simp [alSet, h]
    · simp [alSet, h]

theorem applyAllPure_eq_nil_iff (m : List (String × String))
    (hkvs : List (String × JVal)) :
    applyAllPure hkvs m = [] ↔ hkvs = [] ∧ ∀ em ∈ m, em.2 = "" := by
  induction m generalizing hkvs with
  | nil => simp [applyAllPure]
  | cons em rest ih =>
    show applyAllPure (applyOnePure hkvs em) rest = [] ↔ _
    rw [ih]
    unfold applyOnePure
    by_cases hz : em.2 = ""
    · rw [if_pos hz]
      constructor
      · rintro ⟨h1, h2⟩
        exact ⟨h1, fun x hx => by
          rcases List.mem_cons.mp hx with hx | hx
          · rw [hx]; exact hz
          · exact h2 x hx⟩
      · rintro ⟨h1, h2⟩
        exact ⟨h1, fun x hx => h2 x (List.mem_cons_of_mem _ hx)⟩
    · rw [if_neg hz]
      constructor
      · rintro ⟨h1, _⟩
        exact absurd h1 (alSet_ne_nil _ _ _)
      · rintro ⟨_, h2⟩
        exact absurd (h2 em (List.mem_cons_self _ _)) hz

end ClaudeSound.Hooks

namespace ClaudeSound

theorem isPrefixOf_self (l : List Char) : l.isPrefixOf l = true := by
  induction l with
  | nil => rfl
  | cons c rest ih => simp [List.isPrefixOf, ih]

theorem strIncludes_go_suffix (p : List Char) :
    ∀ a : List Char, strIncludes.go p (a ++ p) = true := by
  intro a
  induction a with
  | nil =>
    cases p with
    | nil => rfl
    | cons c rest =>
      show ((c :: rest).isPrefixOf (c :: rest) || strIncludes.go (c :: rest) rest) = true
      rw [isPrefixOf_self]
      rfl
  | cons c a ih =>
    show (p.isPrefixOf (c :: (a ++ p)) || strIncludes.go p (a ++ p)) = true
    rw [ih]
    exact Bool.or_true _

theorem strIncludes_append_right (a p : String) :
    strIncludes (a ++ p) p = true := by
  unfold strIncludes
  have hd : (a ++ p).toList = a.toList ++ p.toList := String.data_append a p
  rw [hd]
  exact strIncludes_go_suffix p.toList a.toList

theorem alGet_isSome_of_mem_keys {α : Type} {kvs : List (String × α)}
    {k : String} (h : k ∈ alKeys kvs) : (alGet kvs k).isSome = true := by
  induction kvs with
  | nil => simp [alKeys] at h
  | cons kv rest ih =>
    by_cases hk : kv.1 = k
    · simp [alGet, hk]
    · simp only [alKeys, List.map_cons, List.mem_cons] at h
      rcases h with h | h
      · exact absurd h.symm hk
      · simp only [alGet, if_neg hk]
        exact ih h

theorem DeepEq.rfl : ∀ v : JVal, DeepEq v v := by
  have H : ∀ n, ∀ v : JVal, sizeOf v ≤ n → DeepEq v v := by
    intro n
    induction n using Nat.strong_induction_on with
    | _ n ih =>
      intro v hv
      cases v with
      | null => exact .null
      | bool b => exact .bool b
      | num nn => exact .num nn
      | str s => exact .str s
      | arr xs =>
        refine .arr (List.forall₂_same.mpr (fun x hx => ?_))
        have hlt : sizeOf x < sizeOf (JVal.arr xs) := by
          have h1 := List.sizeOf_lt_of_mem hx
          have h2 : sizeOf (JVal.arr xs) = 1 + sizeOf xs := by simp
          omega
        exact ih (sizeOf x) (by omega) x le_rfl
      | obj kvs =>
        refine .obj (fun k => ?_)
        cases hg : alGet kvs k with
        | none => exact .none
        | some w =>
          have hmem := alGet_mem hg
          have hlt : sizeOf w < sizeOf (JVal.obj kvs) := by
            have h1 := List.sizeOf_lt_of_mem hmem
            have h2 : sizeOf (k, w) = 1 + sizeOf k + sizeOf w := by simp
            have h3 : sizeOf (JVal.obj kvs) = 1 + sizeOf kvs := by simp
            omega
          exact .some (ih (sizeOf w) (by omega) w le_rfl)
  exact fun v => H (sizeOf v) v le_rfl

theorem DeepEq.of_eq {a b : JVal} (h : a = b) : DeepEq a b := h ▸ DeepEq.rfl a

theorem optionRel_of_eq {o o' : Option JVal} (h : o = o') :
    Option.Rel DeepEq o o' := by
  subst h
  cases o with
  | none => exact .none
  | some v => exact .some (DeepEq.rfl v)

end ClaudeSound

namespace ClaudeSound.Hooks

theorem applyMappings_ok {settings : JVal} {m : List (String × String)}
    (hm : validMappingB m = true) :
    applyMappingsToSettings settings m =
      (if (applyAllPure (stripHooks (hooksSpread settings)) m).isEmpty then
        .ok (.obj (alDel settings.ownEntries "hooks"))
      else
        .ok (.obj (alSet settings.ownEntries "hooks"
          (.obj (applyAllPure (stripHooks (hooksSpread settings)) m))))) := by
  unfold applyMappingsToSettings
  rw [applyAll_eq_pure (validMappingB_spec hm).2]

theorem applyMappings_cases {settings : JVal} {m : List (String × String)}
    (hm : validMappingB m = true) :
    (applyAllPure (stripHooks (hooksSpread settings)) m = [] ∧
      applyMappingsToSettings settings m =
        .ok (.obj (alDel settings.ownEntries "hooks"))) ∨
    (applyAllPure (stripHooks (hooksSpread settings)) m ≠ [] ∧
      applyMappingsToSettings settings m =
        .ok (.obj (alSet settings.ownEntries "hooks"
          (.obj (applyAllPure (stripHooks (hooksSpread settings)) m))))) := by
  rw [applyMappings_ok hm]
  by_cases h : (applyAllPure (stripHooks (hooksSpread settings)) m).isEmpty = true
  · exact Or.inl ⟨List.isEmpty_iff.mp h, by rw [if_pos h]⟩
  · have hf : (applyAllPure (stripHooks (hooksSpread settings)) m).isEmpty = false := by
      simpa using h
    refine Or.inr ⟨?_, by rw [hf]; simp⟩
    intro he
    rw [he] at hf
    simp at hf

theorem hooksSpread_set (out0 : List (String × JVal)) (h2 : List (String × JVal)) :
    hooksSpread (.obj (alSet out0 "hooks" (.obj h2))) = h2 := by
  unfold hooksSpread
  show (match alGet (alSet out0 "hooks" (.obj h2)) "hooks" with
    | some h => if h.truthy then h.ownEntries else []
    | none => []) = h2
  rw [alGet_alSet_self]
  rfl

theorem hooksSpread_del (out0 : List (String × JVal)) :
    hooksSpread (.obj (alDel out0 "hooks")) = [] := by
  unfold hooksSpread
  show (match alGet (alDel out0 "hooks") "hooks" with
    | some h => if h.truthy then h.ownEntries else []
    | none => []) = []
  rw [alGet_alDel_self]

theorem mkHandler_command (cmd : String) :
    (mkHandler cmd).getField "command" = some (.str cmd) := rfl

theorem mkGroup_hooks (cmd : String) :
    (mkGroup cmd).getField "hooks" = some (.arr [mkHandler cmd]) := rfl

theorem isManagedCommand_managedCommandString (e s : String) :
    isManagedCommand (some (.str (managedCommandString e s))) = true := by
  unfold isManagedCommand managedCommandString
  exact strIncludes_append_right _ _

theorem stripGroup_mkGroup {cmd : String}
    (h : strIncludes cmd MANAGED_TOKEN = true) :
    stripGroup (mkGroup cmd) = none := by
  unfold stripGroup
  rw [mkGroup_hooks]
  show (if (([mkHandler cmd]).filter
      (fun hd => !isManagedCommand (hd.getField "command"))).isEmpty then none
    else _) = none
  have hf : ([mkHandler cmd]).filter
      (fun hd => !isManagedCommand (hd.getField "command")) = [] := by
    rw [List.filter_eq_nil_iff]
    intro a ha
    rcases List.mem_singleton.mp ha with rfl
    rw [mkHandler_command]
    show ¬ (!isManagedCommand (some (.str cmd))) = true
    rw [show isManagedCommand (some (.str cmd)) = strIncludes cmd MANAGED_TOKEN
      from rfl, h]
    simp
  rw [hf]
  rfl

theorem filterMap_stripGroup_fixed (gs : List JVal) :
    (gs.filterMap stripGroup).filterMap stripGroup = gs.filterMap stripGroup := by
  apply filterMap_fixed
  intro g' hg'
  rcases List.mem_filterMap.mp hg' with ⟨g, _, hgg⟩
  exact stripGroup_restrip hgg

end ClaudeSound.Hooks

namespace ClaudeSound.Hooks

theorem stripEntryVal_arr_eq (gs : List JVal) :
    stripEntryVal (some (JVal.arr gs)) =
      (if (gs.filterMap stripGroup).isEmpty then none
        else some (JVal.arr (gs.filterMap stripGroup))) := rfl

theorem stripEntryVal_single_managed {cmd : String}
    (hG : stripGroup (mkGroup cmd) = none) :
    stripEntryVal (some (JVal.arr [mkGroup cmd])) = none := by
  rw [stripEntryVal_arr_eq, List.filterMap_cons, hG]
  rfl

theorem stripEntryVal_fixed_arr {gs : List JVal}
    (hfix : stripEntryVal (some (JVal.arr gs)) = some (JVal.arr gs)) :
    gs.filterMap stripGroup = gs ∧ gs ≠ [] := by
  rw [stripEntryVal_arr_eq] at hfix
  by_cases hng : (gs.filterMap stripGroup).isEmpty = true
  · rw [if_pos hng] at hfix
    exact absurd hfix (by simp)
  · have hngf : (gs.filterMap stripGroup).isEmpty = false := by simpa using hng
    rw [hngf] at hfix
    simp only [Bool.false_eq_true, if_false, Option.some.injEq,
      JVal.arr.injEq] at hfix
    refine ⟨hfix, fun he => ?_⟩
    rw [he] at hngf
    rw [he] at hfix
    rw [hfix] at hngf
    simp at hngf

theorem egs_stripEntryVal_append_group {h1e : Option JVal} {cmd : String}
    (hfix : stripEntryVal h1e = h1e) (hG : stripGroup (mkGroup cmd) = none) :
    egs (stripEntryVal (some (JVal.arr (egs h1e ++ [mkGroup cmd])))) = egs h1e := by
  cases h1e with
  | none =>
    show egs (stripEntryVal (some (JVal.arr ([] ++ [mkGroup cmd])))) = egs none
    rw [List.nil_append, stripEntryVal_single_managed hG]
  | some v =>
    cases v with
    | arr gs =>
      obtain ⟨hf, hne⟩ := stripEntryVal_fixed_arr hfix
      show egs (stripEntryVal (some (JVal.arr (gs ++ [mkGroup cmd])))) =
        egs (some (JVal.arr gs))
      rw [stripEntryVal_arr_eq, List.filterMap_append, hf,
        List.filterMap_cons, hG]
      rw [show List.filterMap stripGroup [] = [] from rfl, List.append_nil]
      have hee : gs.isEmpty = false := by
        cases gs with
        | nil => exact absurd rfl hne
        | cons a b => rfl
      rw [hee]
      rfl
    | null =>
      show egs (stripEntryVal (some (JVal.arr ([] ++ [mkGroup cmd])))) = egs (some JVal.null)
      rw [List.nil_append, stripEntryVal_single_managed hG]
      rfl
    | bool b =>
      show egs (stripEntryVal (some (JVal.arr ([] ++ [mkGroup cmd])))) = egs (some (JVal.bool b))
      rw [List.nil_append, stripEntryVal_single_managed hG]
      rfl
    | num n =>
      show egs (stripEntryVal (some (JVal.arr ([] ++ [mkGroup cmd])))) = egs (some (JVal.num n))
      rw [List.nil_append, stripEntryVal_single_managed hG]
      rfl
    | str s =>
      show egs (stripEntryVal (some (JVal.arr ([] ++ [mkGroup cmd])))) = egs (some (JVal.str s))
      rw [List.nil_append, stripEntryVal_single_managed hG]
      rfl
    | obj fields =>
      show egs (stripEntryVal (some (JVal.arr ([] ++ [mkGroup cmd])))) = egs (some (JVal.obj fields))
      rw [List.nil_append, stripEntryVal_single_managed hG]
      rfl

end ClaudeSound.Hooks

namespace ClaudeSound.Hooks

theorem h2_invariant {hooks0 : List (String × JVal)} {m : List (String × String)}
    (hnd0 : (alKeys hooks0).Nodup) (hmnd : (m.map Prod.fst).Nodup)
    (e : String) :
    alGet (applyAllPure (stripHooks (applyAllPure (stripHooks hooks0) m)) m) e =
      alGet (applyAllPure (stripHooks hooks0) m) e := by
  have h1nd : (alKeys (stripHooks hooks0)).Nodup := nodup_alKeys_stripHooks hnd0
  have h2nd : (alKeys (applyAllPure (stripHooks hooks0) m)).Nodup :=
    nodup_alKeys_applyAllPure h1nd
  have hfix1 : ∀ k, stripEntryVal (alGet (stripHooks hooks0) k) =
      alGet (stripHooks hooks0) k := by
    intro k
    rw [alGet_stripHooks hnd0, stripEntryVal_idem]
  cases hme : alGet m e with
  | none =>
    have hnm : e ∉ m.map Prod.fst := by
      intro hms
      have hsm := @alGet_isSome_of_mem_keys String m e hms
      rw [hme] at hsm
      simp at hsm
    rw [alGet_applyAllPure_not_mem hnm, alGet_applyAllPure_not_mem hnm,
      alGet_stripHooks h2nd, alGet_applyAllPure_not_mem hnm]
    exact hfix1 e
  | some s =>
    have hmem : (e, s) ∈ m := alGet_mem hme
    by_cases hs : s = ""
    · subst hs
      rw [alGet_applyAllPure_mem_empty hmnd hmem,
        alGet_applyAllPure_mem_empty hmnd hmem,
        alGet_stripHooks h2nd, alGet_applyAllPure_mem_empty hmnd hmem]
      exact hfix1 e
    · rw [alGet_applyAllPure_mem hmnd hmem hs, alGet_applyAllPure_mem hmnd hmem hs,
        alGet_stripHooks h2nd, alGet_applyAllPure_mem hmnd hmem hs]
      have hG : stripGroup (mkGroup (managedCommandString e s)) = none :=
        stripGroup_mkGroup (by
          unfold managedCommandString
          exact strIncludes_append_right _ _)
      rw [egs_stripEntryVal_append_group (hfix1 e) hG]

theorem alGet_head_isSome {α : Type} {kvs : List (String × α)} (h : kvs ≠ []) :
    ∃ k v, alGet kvs k = some v := by
  cases kvs with
  | nil => exact absurd rfl h
  | cons kv rest => exact ⟨kv.1, kv.2, by simp [alGet]⟩

/-- C1: reconciliation is idempotent up to deep equality: for every
well-formed settings document and every mapping that passes validation,
applying the mapping twice yields a document deep-equal to applying it
once (the only possible difference is the position of event keys inside
the `hooks` object, which deep equality ignores). -/
theorem C1_reconcile_idempotent (d : JVal) (m : List (String × String))
    (hwf : d.wfB = true) (hm : validMappingB m = true) :
    ∃ r, applyMappingsToSettings d m = .ok r ∧
      ∃ r2, applyMappingsToSettings r m = .ok r2 ∧ DeepEq r2 r := by
  have hmnd : (m.map Prod.fst).Nodup := (validMappingB_spec hm).1
  have hnd0 : (alKeys (hooksSpread d)).Nodup := by
    unfold hooksSpread
    cases hg : alGet d.ownEntries "hooks" with
    | none => exact List.nodup_nil
    | some h =>
      show (alKeys (if h.truthy then h.ownEntries else [])).Nodup
      by_cases ht : h.truthy = true
      · rw [ht]
        simp only [if_true]
        exact wfB_ownEntries_keys_nodup
          (wfB_ownEntries_values hwf _ (alGet_mem hg))
      · have htf : h.truthy = false := by simpa using ht
        rw [htf]
        simp only [Bool.false_eq_true, if_false]
        exact List.nodup_nil
  rcases @applyMappings_cases d m hm with ⟨hz, heq⟩ | ⟨hz, heq⟩
  · -- the hooks object came out empty and was deleted
    refine ⟨_, heq, ?_⟩
    have hz2 : applyAllPure (stripHooks (hooksSpread
        (.obj (alDel d.ownEntries "hooks")))) m = [] := by
      rw [hooksSpread_del]
      show applyAllPure (stripHooks []) m = []
      rw [show stripHooks ([] : List (String × JVal)) = [] from rfl]
      rw [applyAllPure_eq_nil_iff]
      exact ⟨rfl, ((applyAllPure_eq_nil_iff m _).mp hz).2⟩
    rcases @applyMappings_cases (.obj (alDel d.ownEntries "hooks")) m hm
      with ⟨_, heq2⟩ | ⟨hz2f, _⟩
    · refine ⟨_, heq2, ?_⟩
      apply DeepEq.of_eq
      show JVal.obj (alDel (JVal.obj (alDel d.ownEntries "hooks")).ownEntries
        "hooks") = JVal.obj (alDel d.ownEntries "hooks")
      rw [show (JVal.obj (alDel d.ownEntries "hooks")).ownEntries =
        alDel d.ownEntries "hooks" from rfl, alDel_alDel]
    · exact absurd hz2 hz2f
  · -- the hooks object is non-empty
    refine ⟨_, heq, ?_⟩
    have hsp : hooksSpread (.obj (alSet d.ownEntries "hooks"
        (.obj (applyAllPure (stripHooks (hooksSpread d)) m)))) =
        applyAllPure (stripHooks (hooksSpread d)) m := hooksSpread_set _ _
    have hptw : ∀ e, alGet (applyAllPure (stripHooks (hooksSpread
        (.obj (alSet d.ownEntries "hooks"
          (.obj (applyAllPure (stripHooks (hooksSpread d)) m)))))) m) e =
        alGet (applyAllPure (stripHooks (hooksSpread d)) m) e := by
      intro e
      rw [hsp]
      exact h2_invariant hnd0 hmnd e
    have hz2 : applyAllPure (stripHooks (hooksSpread
        (.obj (alSet d.ownEntries "hooks"
          (.obj (applyAllPure (stripHooks (hooksSpread d)) m)))))) m ≠ [] := by
      obtain ⟨k, v, hkv⟩ := alGet_head_isSome hz
      intro he
      have := hptw k
      rw [he, hkv] at this
      simp [alGet] at this
    rcases @applyMappings_cases (.obj (alSet d.ownEntries "hooks"
        (.obj (applyAllPure (stripHooks (hooksSpread d)) m)))) m hm
      with ⟨hz2e, _⟩ | ⟨_, heq2⟩
    · exact absurd hz2e hz2
    · refine ⟨_, heq2, ?_⟩
      rw [show (JVal.obj (alSet d.ownEntries "hooks"
        (.obj (applyAllPure (stripHooks (hooksSpread d)) m)))).ownEntries =
        alSet d.ownEntries "hooks"
          (.obj (applyAllPure (stripHooks (hooksSpread d)) m)) from rfl]
      rw [alSet_alSet_same]
      apply DeepEq.obj
      intro k
      by_cases hk : k = "hooks"
      · subst hk
        rw [alGet_alSet_self, alGet_alSet_self]
        exact Option.Rel.some (DeepEq.obj (fun e => optionRel_of_eq (hptw e)))
      · rw [alGet_alSet_ne _ _ hk, alGet_alSet_ne _ _ hk]
        exact optionRel_of_eq rfl

end ClaudeSound.Hooks

namespace ClaudeSound.Hooks

theorem safe_char_toNat {c : Char} (h : isSafeSoundChar c = true) :
    (97 ≤ c.toNat ∧ c.toNat ≤ 122) ∨ (65 ≤ c.toNat ∧ c.toNat ≤ 90) ∨
    (48 ≤ c.toNat ∧ c.toNat ≤ 57) ∨ c.toNat = 47 ∨ c.toNat = 95 ∨
    c.toNat = 45 := by
  unfold isSafeSoundChar at h
  simp only [Bool.or_eq_true, Bool.and_eq_true, decide_eq_true_eq,
    beq_iff_eq] at h
  rcases h with ((((⟨h1, h2⟩ | ⟨h1, h2⟩) | ⟨h1, h2⟩) | h1) | h1) | h1
  · exact Or.inl ⟨by rw [Char.le_def] at h1; exact h1,
      by rw [Char.le_def] at h2; exact h2⟩
  · exact Or.inr (Or.inl ⟨by rw [Char.le_def] at h1; exact h1,
      by rw [Char.le_def] at h2; exact h2⟩)
  · exact Or.inr (Or.inr (Or.inl ⟨by rw [Char.le_def] at h1; exact h1,
      by rw [Char.le_def] at h2; exact h2⟩))
  · subst h1; exact Or.inr (Or.inr (Or.inr (Or.inl rfl)))
  · subst h1; exact Or.inr (Or.inr (Or.inr (Or.inr (Or.inl rfl))))
  · subst h1; exact Or.inr (Or.inr (Or.inr (Or.inr (Or.inr rfl))))

theorem not_ws_of_safe {c : Char} (h : isSafeSoundChar c = true) :
    isJsWhitespace c = false := by
  have hn := safe_char_toNat h
  have hne : ∀ k : Nat, k ≠ 47 ∧ k ≠ 95 ∧ k ≠ 45 ∧ ¬(48 ≤ k ∧ k ≤ 57) ∧
      ¬(65 ≤ k ∧ k ≤ 90) ∧ ¬(97 ≤ k ∧ k ≤ 122) → c.toNat ≠ k := by
    intro k hk he
    rw [he] at hn
    rcases hn with ⟨a, b⟩ | ⟨a, b⟩ | ⟨a, b⟩ | a | a | a <;> omega
  have hchar : ∀ d : Char, c.toNat ≠ d.toNat → (c == d) = false := by
    intro d hd
    have : ¬ c = d := fun he => hd (by rw [he])
    exact beq_eq_false_iff_ne.mpr this
  unfold isJsWhitespace
  rw [hchar ' ' (hne 32 (by omega)), hchar '\t' (hne 9 (by omega)),
    hchar '\n' (hne 10 (by omega)), hchar '\r' (hne 13 (by omega))]
  have hs : ∀ k : Nat, c.toNat ≠ k → (c.toNat == k) = false :=
    fun k hk => beq_eq_false_iff_ne.mpr hk
  rw [hs 0x0b (hne 0x0b (by omega)), hs 0x0c (hne 0x0c (by omega)),
    hs 0xa0 (hne 0xa0 (by omega)), hs 0x1680 (hne 0x1680 (by omega)),
    hs 0x2028 (hne 0x2028 (by omega)), hs 0x2029 (hne 0x2029 (by omega)),
    hs 0x202f (hne 0x202f (by omega)), hs 0x205f (hne 0x205f (by omega)),
    hs 0x3000 (hne 0x3000 (by omega)), hs 0xfeff (hne 0xfeff (by omega))]
  have hr : decide (0x2000 ≤ c.toNat) = false ∨ decide (c.toNat ≤ 0x200a) = false := by
    rcases hn with ⟨a, b⟩ | ⟨a, b⟩ | ⟨a, b⟩ | a | a | a <;>
      exact Or.inl (decide_eq_false (by omega))
  rcases hr with hr | hr
  · rw [hr]
    rfl
  · rw [hr]
    simp

theorem takeWhile_all_append {p : Char → Bool} {xs : List Char} {y : Char}
    {ys : List Char} (hall : ∀ x ∈ xs, p x = true) (hy : p y = false) :
    (xs ++ y :: ys).takeWhile p = xs := by
  induction xs with
  | nil => simp [List.takeWhile_cons, hy]
  | cons x rest ih =>
    rw [List.cons_append, List.takeWhile_cons,
      if_pos (hall x (List.mem_cons_self _ _)),
      ih (fun z hz => hall z (List.mem_cons_of_mem _ hz))]

theorem dropWhile_all_append {p : Char → Bool} {xs : List Char} {y : Char}
    {ys : List Char} (hall : ∀ x ∈ xs, p x = true) (hy : p y = false) :
    (xs ++ y :: ys).dropWhile p = y :: ys := by
  induction xs with
  | nil => simp [List.dropWhile_cons, hy]
  | cons x rest ih =>
    rw [List.cons_append, List.dropWhile_cons,
      if_pos (hall x (List.mem_cons_self _ _)),
      ih (fun z hz => hall z (List.mem_cons_of_mem _ hz))]

theorem isPrefixOf_append_self (p r : List Char) :
    p.isPrefixOf (p ++ r) = true := by
  induction p with
  | nil => simp [List.isPrefixOf]
  | cons c rest ih => simp [List.isPrefixOf, ih]

theorem safeSoundId_toList_ne_nil {s : String} (hs : safeSoundIdTest s = true) :
    s.toList ≠ [] := by
  unfold safeSoundIdTest at hs
  simp only [Bool.and_eq_true, Bool.not_eq_true'] at hs
  intro he
  have hemp : s = "" := by
    cases s with
    | mk data =>
      cases data with
      | nil => rfl
      | cons a b => simp [String.toList] at he
  rw [hemp] at hs
  simp [String.isEmpty] at hs

theorem safeSoundId_chars {s : String} (hs : safeSoundIdTest s = true) :
    ∀ c ∈ s.toList, isSafeSoundChar c = true := by
  unfold safeSoundIdTest at hs
  simp only [Bool.and_eq_true] at hs
  exact List.all_eq_true.mp hs.2

theorem matchSoundAt_token {s : String} (hs : safeSoundIdTest s = true) :
    matchSoundAt (SOUND_FLAG ++ (' ' :: (s.toList ++ ' ' :: MANAGED_TOKEN.toList))) =
      some s := by
  obtain ⟨c0, srest, hc0⟩ : ∃ c0 srest, s.toList = c0 :: srest := by
    cases hx : s.toList with
    | nil => exact absurd hx (safeSoundId_toList_ne_nil hs)
    | cons a b => exact ⟨a, b, rfl⟩
  have hsafe := safeSoundId_chars hs
  rw [hc0] at hsafe
  have hc0safe : isSafeSoundChar c0 = true := hsafe c0 (List.mem_cons_self _ _)
  have hc0ws : isJsWhitespace c0 = false := not_ws_of_safe hc0safe
  unfold matchSoundAt
  rw [if_pos (isPrefixOf_append_self _ _), List.drop_left, hc0]
  have hX : ((c0 :: srest) ++ ' ' :: MANAGED_TOKEN.toList).takeWhile
      isJsWhitespace = [] := by
    rw [List.cons_append, List.takeWhile_cons, if_neg (by rw [hc0ws]; simp)]
  have h1 : (' ' :: ((c0 :: srest) ++ ' ' :: MANAGED_TOKEN.toList)).takeWhile
      isJsWhitespace = [' '] := by
    rw [List.takeWhile_cons, if_pos (show isJsWhitespace ' ' = true from rfl), hX]
  rw [if_neg (by rw [h1]; simp)]
  have h2 : (' ' :: ((c0 :: srest) ++ ' ' :: MANAGED_TOKEN.toList)).dropWhile
      isJsWhitespace = (c0 :: srest) ++ ' ' :: MANAGED_TOKEN.toList := by
    rw [List.dropWhile_cons, if_pos (show isJsWhitespace ' ' = true from rfl),
      List.cons_append, List.dropWhile_cons,
      if_neg (by rw [hc0ws]; simp), ← List.cons_append]
  rw [h2]
  have h3 : ((c0 :: srest) ++ ' ' :: MANAGED_TOKEN.toList).takeWhile
      (fun c => !isJsWhitespace c) = c0 :: srest := by
    apply takeWhile_all_append
    · intro x hx
      rw [not_ws_of_safe (hsafe x hx)]
      rfl
    · rfl
  rw [h3, if_neg (by simp)]
  rw [← hc0]
  rfl


/-- A position where the literal `--sound` is not present never matches. -/
theorem matchSoundAt_none_of_flag_absent {cs : List Char}
    (h : SOUND_FLAG.isPrefixOf cs = false) : matchSoundAt cs = none := by
  simp [matchSoundAt, h]

/-- Whether a candidate is a prefix of an appended list only depends on the
first part when the first part is long enough. -/
theorem isPrefixOf_append_of_le {p us : List Char} (vs : List Char)
    (h : p.length ≤ us.length) :
    p.isPrefixOf (us ++ vs) = p.isPrefixOf us := by
  induction p generalizing us with
  | nil => simp [List.isPrefixOf]
  | cons a p ih =>
    cases us with
    | nil => simp at h
    | cons b us =>
      simp only [List.cons_append, List.isPrefixOf, List.append_eq]
      rw [ih (by simpa using Nat.le_of_succ_le_succ h)]

/-- The left-to-right search skips positions where no match happens. -/
theorem searchSoundFlag_append (xs ys : List Char)
    (h : ∀ n, n < xs.length → matchSoundAt (xs.drop n ++ ys) = none) :
    searchSoundFlag (xs ++ ys) = searchSoundFlag ys := by
  induction xs with
  | nil => rfl
  | cons c xs ih =>
    have h0 : matchSoundAt (c :: (xs ++ ys)) = none := by
      have := h 0 (Nat.succ_pos _)
      simpa using this
    have hrec : searchSoundFlag (xs ++ ys) = searchSoundFlag ys := by
      apply ih
      intro n hn
      have := h (n + 1) (Nat.succ_lt_succ hn)
      simpa using this
    show (match matchSoundAt (c :: (xs ++ ys)) with
        | some t => some t
        | none => searchSoundFlag (xs ++ ys)) = searchSoundFlag ys
    rw [h0, hrec]

/-- Search succeeds on the token portion of a managed command. -/
theorem searchSoundFlag_token {s : String} (hs : safeSoundIdTest s = true) :
    searchSoundFlag (SOUND_FLAG ++ (' ' :: (s.toList ++ ' ' :: MANAGED_TOKEN.toList)))
      = some s := by
  have h := matchSoundAt_token hs
  have hc : SOUND_FLAG ++ (' ' :: (s.toList ++ ' ' :: MANAGED_TOKEN.toList))
      = '-' :: ("-sound".toList ++ (' ' :: (s.toList ++ ' ' :: MANAGED_TOKEN.toList))) := rfl
  rw [hc] at h ⊢
  show (match matchSoundAt ('-' :: ("-sound".toList ++
        (' ' :: (s.toList ++ ' ' :: MANAGED_TOKEN.toList)))) with
      | some t => some t
      | none => searchSoundFlag ("-sound".toList ++
          (' ' :: (s.toList ++ ' ' :: MANAGED_TOKEN.toList)))) = some s
  rw [h]

set_option maxRecDepth 8000 in
/-- Extraction inverts command construction: the sound id written into a
managed command by `buildManagedCommand` is recovered whole by
`extractManagedSoundId`. -/
theorem extract_managedCommandString {e s : String} (he : e ∈ HOOK_EVENTS)
    (hs : safeSoundIdTest s = true) :
    extractManagedSoundId (managedCommandString e s) = some s := by
  have hdecomp : (managedCommandString e s).toList
      = ("npx --yes claude-sound@latest play --event " ++ e ++ " ").toList
        ++ (SOUND_FLAG ++ (' ' :: (s.toList ++ ' ' :: MANAGED_TOKEN.toList))) := by
    simp [managedCommandString, SOUND_FLAG, MANAGED_TOKEN, String.toList, List.append_assoc]
  have hA : ∀ n, n < ("npx --yes claude-sound@latest play --event " ++ e ++ " ").toList.length →
      SOUND_FLAG.isPrefixOf
        ((("npx --yes claude-sound@latest play --event " ++ e ++ " ").toList.drop n)
          ++ SOUND_FLAG) = false := by
    fin_cases he <;> decide
  have h' : ∀ n, n < ("npx --yes claude-sound@latest play --event " ++ e ++ " ").toList.length →
      matchSoundAt ((("npx --yes claude-sound@latest play --event " ++ e ++ " ").toList.drop n)
        ++ (SOUND_FLAG ++ (' ' :: (s.toList ++ ' ' :: MANAGED_TOKEN.toList)))) = none := by
    intro n hn
    apply matchSoundAt_none_of_flag_absent
    rw [← List.append_assoc]
    rw [isPrefixOf_append_of_le _ (by simp)]
    exact hA n hn
  unfold extractManagedSoundId
  rw [hdecomp, searchSoundFlag_append _ _ h', searchSoundFlag_token hs]


/-- A handler kept by the strip phase carries no managed command. -/
theorem handlerManagedCommand_none_of_unmanaged {h : JVal}
    (hm : isManagedCommand (h.getField "command") = false) :
    handlerManagedCommand h = none := by
  unfold handlerManagedCommand
  cases hf : h.getField "command" with
  | none => rfl
  | some v =>
    cases v with
    | str c =>
      rw [hf] at hm
      have hsi : strIncludes c MANAGED_TOKEN = false := hm
      show (if strIncludes c MANAGED_TOKEN then some c else none) = none
      rw [hsi]
      rfl
    | null => rfl
    | bool b => rfl
    | num n => rfl
    | arr xs => rfl
    | obj kvs => rfl

/-- The handlers of a group output by the strip phase extract no managed
commands at all. -/
theorem stripGroup_handlers_unmanaged {g g' : JVal} (h : stripGroup g = some g') :
    (handlersOf g').filterMap handlerManagedCommand = [] := by
  unfold stripGroup at h
  set handlers := (match g.getField "hooks" with
    | some (.arr hs) => hs
    | _ => []) with hh
  set kept := handlers.filter
    (fun hd => !isManagedCommand (hd.getField "command")) with hkept
  by_cases hke : kept.isEmpty = true
  · rw [if_pos hke] at h
    exact absurd h (by simp)
  · rw [if_neg hke] at h
    have hg' : g' = .obj (alSet g.ownEntries "hooks" (.arr kept)) :=
      (Option.some.inj h).symm
    have hfield : handlersOf g' = kept := by
      rw [hg']
      unfold handlersOf
      show (match JVal.getField (.obj (alSet g.ownEntries "hooks" (.arr kept)))
          "hooks" with
        | some (.arr hs) => hs
        | _ => []) = kept
      rw [show JVal.getField (.obj (alSet g.ownEntries "hooks" (.arr kept))) "hooks"
        = alGet (alSet g.ownEntries "hooks" (.arr kept)) "hooks" from rfl,
        alGet_alSet_self]
    rw [hfield, List.filterMap_eq_nil]
    intro a ha
    apply handlerManagedCommand_none_of_unmanaged
    rw [hkept] at ha
    have := List.of_mem_filter ha
    simpa using this

/-- The synthesized handler of the apply phase extracts its own command. -/
theorem handlerManagedCommand_mkHandler {cmd : String}
    (h : strIncludes cmd MANAGED_TOKEN = true) :
    handlerManagedCommand (mkHandler cmd) = some cmd := by
  unfold handlerManagedCommand
  rw [mkHandler_command]
  show (if strIncludes cmd MANAGED_TOKEN then some cmd else none) = some cmd
  rw [if_pos h]

/-- A managed command built from a valid event and sound id re-validates to
exactly that sound id. -/
theorem cmdValidId_managedCommandString {e s : String} (he : e ∈ HOOK_EVENTS)
    (hs : safeSoundIdTest s = true) (hl : jsLength s ≤ 120) :
    cmdValidId (managedCommandString e s) = some s := by
  unfold cmdValidId
  rw [extract_managedCommandString he hs]
  simp [hs, hl]

/-- The `hooks` entries scanned by the extraction on a document whose
`hooks` key was just set to an object. -/
theorem hooksEntriesOf_set (out0 : List (String × JVal)) (H : List (String × JVal)) :
    hooksEntriesOf (.obj (alSet out0 "hooks" (.obj H))) = H := by
  unfold hooksEntriesOf
  rw [show JVal.getField (.obj (alSet out0 "hooks" (.obj H))) "hooks"
    = alGet (alSet out0 "hooks" (.obj H)) "hooks" from rfl, alGet_alSet_self]

/-- The `hooks` entries scanned by the extraction on a document whose
`hooks` key was just deleted. -/
theorem hooksEntriesOf_del (out0 : List (String × JVal)) :
    hooksEntriesOf (.obj (alDel out0 "hooks")) = [] := by
  unfold hooksEntriesOf
  rw [show JVal.getField (.obj (alDel out0 "hooks")) "hooks"
    = alGet (alDel out0 "hooks") "hooks" from rfl, alGet_alDel_self]

/-- `managedCommandsFor` through the named per-entry function. -/
theorem managedCommandsFor_eq_mcf (settings : JVal) (e : String) :
    managedCommandsFor settings e = (hooksEntriesOf settings).flatMap (mcfEntry e) :=
  rfl

/-- Over entries with distinct keys, the per-event managed-command scan
reduces to the single entry keyed by the event. -/
theorem flatMap_mcf (e : String) (kvs : List (String × JVal))
    (hnd : (alKeys kvs).Nodup) :
    kvs.flatMap (mcfEntry e) =
      (match alGet kvs e with
      | some v => mcfEntry e (e, v)
      | none => []) := by
  induction kvs with
  | nil => rfl
  | cons kv rest ih =>
    simp only [alKeys, List.map_cons, List.nodup_cons] at hnd
    rw [List.flatMap_cons]
    by_cases hk : kv.1 = e
    · have hrest : rest.flatMap (mcfEntry e) = [] := by
        rw [List.flatMap_eq_nil_iff]
        intro x hx
        unfold mcfEntry
        rw [if_neg]
        intro hxe
        exact hnd.1 (List.mem_map.mpr ⟨x, hx, hxe.trans hk.symm⟩)
      rw [hrest, List.append_nil]
      have hget : alGet (kv :: rest) e = some kv.2 := by simp [alGet, hk]
      rw [hget]
      show mcfEntry e kv = mcfEntry e (e, kv.2)
      rw [show ((e, kv.2) : String × JVal) = kv from by rw [← hk]]
    · have hhead : mcfEntry e kv = [] := by
        unfold mcfEntry
        rw [if_neg hk]
      rw [hhead, List.nil_append]
      have hget : alGet (kv :: rest) e = alGet rest e := by simp [alGet, hk]
      rw [hget]
      exact ih hnd.2

/-- Every group surviving the strip phase of an entry value extracts no
managed command. -/
theorem egs_stripEntryVal_unmanaged (o : Option JVal) :
    ∀ g ∈ egs (stripEntryVal o),
      (handlersOf g).filterMap handlerManagedCommand = [] := by
  intro g hg
  cases o with
  | none => simp [stripEntryVal, egs] at hg
  | some v =>
    cases v with
    | arr gs =>
      rw [stripEntryVal_arr_eq] at hg
      by_cases hng : (gs.filterMap stripGroup).isEmpty = true
      · rw [if_pos hng] at hg
        simp [egs] at hg
      · have hngf : (gs.filterMap stripGroup).isEmpty = false := by simpa using hng
        rw [hngf] at hg
        simp only [Bool.false_eq_true, if_false] at hg
        have hg' : g ∈ gs.filterMap stripGroup := hg
        rcases List.mem_filterMap.mp hg' with ⟨g0, _, hst⟩
        exact stripGroup_handlers_unmanaged hst
    | null => simp [stripEntryVal, egs] at hg
    | bool b => simp [stripEntryVal, egs] at hg
    | num n => simp [stripEntryVal, egs] at hg
    | str s => simp [stripEntryVal, egs] at hg
    | obj f => simp [stripEntryVal, egs] at hg

/-- A stripped entry value contributes no managed command to the per-event
scan, whatever its original shape. -/
theorem mcfEntry_stripEntryVal_nil (e : String) (o : Option JVal) :
    (match stripEntryVal o with
      | some v => mcfEntry e (e, v)
      | none => ([] : List String)) = [] := by
  cases o with
  | none => rfl
  | some v =>
    cases v with
    | arr gs =>
      rw [stripEntryVal_arr_eq]
      by_cases hng : (gs.filterMap stripGroup).isEmpty = true
      · rw [if_pos hng]
      · have hngf : (gs.filterMap stripGroup).isEmpty = false := by simpa using hng
        rw [hngf]
        simp only [Bool.false_eq_true, if_false]
        show mcfEntry e (e, .arr (gs.filterMap stripGroup)) = []
        unfold mcfEntry
        rw [if_pos rfl]
        show (if HOOK_EVENTS.contains e then
            (gs.filterMap stripGroup).flatMap
              (fun g => (handlersOf g).filterMap handlerManagedCommand)
          else []) = []
        by_cases hc : HOOK_EVENTS.contains e = true
        · rw [if_pos hc, List.flatMap_eq_nil_iff]
          intro g hg
          rcases List.mem_filterMap.mp hg with ⟨g0, _, hst⟩
          exact stripGroup_handlers_unmanaged hst
        · rw [if_neg hc]
    | null =>
      show mcfEntry e (e, JVal.null) = []
      unfold mcfEntry
      rw [if_pos rfl]
    | bool b =>
      show mcfEntry e (e, JVal.bool b) = []
      unfold mcfEntry
      rw [if_pos rfl]
    | num n =>
      show mcfEntry e (e, JVal.num n) = []
      unfold mcfEntry
      rw [if_pos rfl]
    | str s =>
      show mcfEntry e (e, JVal.str s) = []
      unfold mcfEntry
      rw [if_pos rfl]
    | obj f =>
      show mcfEntry e (e, JVal.obj f) = []
      unfold mcfEntry
      rw [if_pos rfl]

/-- The per-event scan of the freshly written entry finds exactly the one
synthesized managed command. -/
theorem mcfEntry_applied (e s : String) (he : e ∈ HOOK_EVENTS) (o : Option JVal) :
    mcfEntry e (e, .arr (egs (stripEntryVal o) ++
        [mkGroup (managedCommandString e s)])) = [managedCommandString e s] := by
  have hstr : strIncludes (managedCommandString e s) MANAGED_TOKEN = true := by
    unfold managedCommandString
    exact strIncludes_append_right _ _
  unfold mcfEntry
  rw [if_pos rfl]
  show (if HOOK_EVENTS.contains e then
      (egs (stripEntryVal o) ++ [mkGroup (managedCommandString e s)]).flatMap
        (fun g => (handlersOf g).filterMap handlerManagedCommand)
    else []) = [managedCommandString e s]
  rw [if_pos ((contains_iff_mem _ _).mpr he), List.flatMap_append]
  have h1 : (egs (stripEntryVal o)).flatMap
      (fun g => (handlersOf g).filterMap handlerManagedCommand) = [] := by
    rw [List.flatMap_eq_nil_iff]
    exact egs_stripEntryVal_unmanaged o
  rw [h1, List.nil_append]
  have hho : handlersOf (mkGroup (managedCommandString e s)) =
      [mkHandler (managedCommandString e s)] := by
    unfold handlersOf
    rw [mkGroup_hooks]
  show (handlersOf (mkGroup (managedCommandString e s))).filterMap
      handlerManagedCommand ++ [].flatMap
        (fun g => (handlersOf g).filterMap handlerManagedCommand)
    = [managedCommandString e s]
  rw [hho, List.filterMap_cons, handlerManagedCommand_mkHandler hstr]
  rfl


/-- C2: round-trip: for every well-formed settings document and every
mapping that passes validation, reconciling and then extracting the managed
mapping recovers, at every event key, exactly the mapping's entry when its
value is non-empty and nothing when the entry is absent or empty — the
extracted object equals the mapping restricted to its non-empty entries. -/
theorem C2_round_trip (d : JVal) (m : List (String × String))
    (hwf : d.wfB = true) (hm : validMappingB m = true) :
    ∃ r, applyMappingsToSettings d m = .ok r ∧
      ∀ e, alGet (getExistingManagedMappings r) e = mappingValue m e := by
  have hmnd : (m.map Prod.fst).Nodup := (validMappingB_spec hm).1
  have hval : ∀ em ∈ m, validEntry em := (validMappingB_spec hm).2
  have hnd0 : (alKeys (hooksSpread d)).Nodup := by
    unfold hooksSpread
    cases hg : alGet d.ownEntries "hooks" with
    | none => exact List.nodup_nil
    | some h =>
      show (alKeys (if h.truthy then h.ownEntries else [])).Nodup
      by_cases ht : h.truthy = true
      · rw [ht]
        simp only [if_true]
        exact wfB_ownEntries_keys_nodup
          (wfB_ownEntries_values hwf _ (alGet_mem hg))
      · have htf : h.truthy = false := by simpa using ht
        rw [htf]
        simp only [Bool.false_eq_true, if_false]
        exact List.nodup_nil
  rcases @applyMappings_cases d m hm with ⟨hz, heq⟩ | ⟨hz, heq⟩
  · refine ⟨_, heq, ?_⟩
    intro e
    have hall : ∀ em ∈ m, em.2 = "" := ((applyAllPure_eq_nil_iff m _).mp hz).2
    have hgem : getExistingManagedMappings (.obj (alDel d.ownEntries "hooks"))
        = [] := by
      rw [gem_eq_alSets]
      rw [show gemAssignments (.obj (alDel d.ownEntries "hooks")) = [] from by
        unfold gemAssignments
        rw [hooksEntriesOf_del]
        rfl]
      rfl
    rw [hgem]
    cases hme : alGet m e with
    | none => simp [mappingValue, hme, alGet]
    | some s =>
      have hs : s = "" := hall (e, s) (alGet_mem hme)
      simp [mappingValue, hme, hs, alGet]
  · refine ⟨_, heq, ?_⟩
    intro e
    have hndH : (alKeys (applyAllPure (stripHooks (hooksSpread d)) m)).Nodup :=
      nodup_alKeys_applyAllPure (nodup_alKeys_stripHooks hnd0)
    rw [alGet_gem, gemAssignments_filter_eq, managedCommandsFor_eq_mcf,
      hooksEntriesOf_set, flatMap_mcf e _ hndH]
    cases hme : alGet m e with
    | none =>
      have hnm : e ∉ m.map Prod.fst := by
        intro hms
        have hsm := @alGet_isSome_of_mem_keys String m e hms
        rw [hme] at hsm
        simp at hsm
      rw [alGet_applyAllPure_not_mem hnm, alGet_stripHooks hnd0,
        mcfEntry_stripEntryVal_nil]
      simp [mappingValue, hme]
    | some s =>
      have hmem : (e, s) ∈ m := alGet_mem hme
      by_cases hs0 : s = ""
      · subst hs0
        rw [alGet_applyAllPure_mem_empty hmnd hmem, alGet_stripHooks hnd0,
          mcfEntry_stripEntryVal_nil]
        simp [mappingValue, hme]
      · have hv := hval (e, s) hmem
        have he' : e ∈ HOOK_EVENTS := hv.1
        have hsrest : safeSoundIdTest s = true ∧ jsLength s ≤ 120 := by
          rcases hv.2 with h2 | h2
          · exact absurd h2 hs0
          · exact h2
        rw [alGet_applyAllPure_mem hmnd hmem hs0, alGet_stripHooks hnd0]
        show ((((mcfEntry e (e, .arr (egs (stripEntryVal (alGet (hooksSpread d) e))
            ++ [mkGroup (managedCommandString e s)]))).filterMap cmdValidId).map
              (fun s => (e, s))).getLast?).map Prod.snd = mappingValue m e
        rw [mcfEntry_applied e s he', List.filterMap_cons,
          cmdValidId_managedCommandString he' hsrest.1 hsrest.2]
        simp [mappingValue, hme, hs0]


set_option maxRecDepth 8000 in
theorem C2_round_trip_witness :
    (JVal.obj [("foo", JVal.num 1)]).wfB = true ∧
    validMappingB [("Stop", "ring1"), ("Notification", "")] = true ∧
    (∃ r, applyMappingsToSettings (JVal.obj [("foo", JVal.num 1)])
        [("Stop", "ring1"), ("Notification", "")] = .ok r ∧
      ∀ e, alGet (getExistingManagedMappings r) e =
        mappingValue [("Stop", "ring1"), ("Notification", "")] e) :=
  ⟨by decide, by decide, C2_round_trip _ _ (by decide) (by decide)⟩

set_option maxRecDepth 8000 in
theorem C1_reconcile_idempotent_witness :
    (JVal.obj [("hooks", JVal.obj [("Stop", JVal.num 5)])]).wfB = true ∧
    validMappingB [("Stop", "ring1")] = true ∧
    (∃ r, applyMappingsToSettings
        (JVal.obj [("hooks", JVal.obj [("Stop", JVal.num 5)])])
        [("Stop", "ring1")] = .ok r ∧
      ∃ r2, applyMappingsToSettings r [("Stop", "ring1")] = .ok r2 ∧
        DeepEq r2 r) :=
  ⟨by decide, by decide, C1_reconcile_idempotent _ _ (by decide) (by decide)⟩


/-- Setting a key to the value it already holds leaves the list unchanged. -/
theorem alSet_eq_self_of_alGet {α : Type} {kvs : List (String × α)} {k : String}
    {v : α} (h : alGet kvs k = some v) : alSet kvs k v = kvs := by
  induction kvs with
  | nil => simp [alGet] at h
  | cons kv rest ih =>
    by_cases hk : kv.1 = k
    · have hv : v = kv.2 := by
        simp only [alGet, if_pos hk] at h
        exact (Option.some.inj h).symm
      simp only [alSet, if_pos hk]
      rw [hv, ← hk]
    · simp only [alGet, if_neg hk] at h
      simp only [alSet, if_neg hk]
      rw [ih h]

/-- `stripGroup` written through `handlersOf`. -/
theorem stripGroup_eq (g : JVal) :
    stripGroup g =
      (if ((handlersOf g).filter
          (fun h => !isManagedCommand (h.getField "command"))).isEmpty then none
        else some (.obj (alSet g.ownEntries "hooks"
          (.arr ((handlersOf g).filter
            (fun h => !isManagedCommand (h.getField "command"))))))) := rfl

/-- A non-empty handler list pins down the shape of the group. -/
theorem handlersOf_shape {g : JVal} (hne : (handlersOf g).isEmpty = false) :
    g.getField "hooks" = some (.arr (handlersOf g)) := by
  unfold handlersOf at hne ⊢
  cases hf : g.getField "hooks" with
  | none => rw [hf] at hne; simp at hne
  | some v =>
    cases v with
    | arr hs => rfl
    | null => rw [hf] at hne; simp at hne
    | bool b => rw [hf] at hne; simp at hne
    | num n => rw [hf] at hne; simp at hne
    | str s => rw [hf] at hne; simp at hne
    | obj kvs => rw [hf] at hne; simp at hne

/-- The strip phase keeps a wholly foreign group (non-empty, and all of
its handlers non-managed) verbatim. -/
theorem unmanagedGroupB_stripGroup {g : JVal} (hu : unmanagedGroupB g = true) :
    stripGroup g = some g := by
  unfold unmanagedGroupB at hu
  simp only [Bool.and_eq_true, Bool.not_eq_true'] at hu
  obtain ⟨hne, hall⟩ := hu
  have hfix : (handlersOf g).filter
      (fun h => !isManagedCommand (h.getField "command")) = handlersOf g :=
    List.filter_eq_self.mpr (fun h hh => List.all_eq_true.mp hall h hh)
  rw [stripGroup_eq, hfix, if_neg (by simp [hne])]
  have hshape := handlersOf_shape hne
  cases g with
  | obj kvs =>
    have hget : alGet kvs "hooks" = some (.arr (handlersOf (.obj kvs))) := hshape
    show some (JVal.obj (alSet kvs "hooks" (.arr (handlersOf (.obj kvs)))))
      = some (.obj kvs)
    rw [alSet_eq_self_of_alGet hget]
  | null => exact absurd hshape (by simp [JVal.getField])
  | bool b => exact absurd hshape (by simp [JVal.getField])
  | num n => exact absurd hshape (by simp [JVal.getField])
  | str s => exact absurd hshape (by simp [JVal.getField])
  | arr xs => exact absurd hshape (by simp [JVal.getField])

/-- Surviving groups: the wholly foreign groups form a sublist (same
elements, same relative order) of the strip phase's output. -/
theorem filter_unmanaged_sublist (gs : List JVal) :
    List.Sublist (gs.filter unmanagedGroupB) (gs.filterMap stripGroup) := by
  induction gs with
  | nil => exact List.nil_sublist _
  | cons g rest ih =>
    rw [List.filter_cons, List.filterMap_cons]
    by_cases hu : unmanagedGroupB g = true
    · rw [if_pos hu, unmanagedGroupB_stripGroup hu]
      exact List.Sublist.cons₂ g ih
    · have huf : unmanagedGroupB g = false := by simpa using hu
      rw [huf]
      simp only [Bool.false_eq_true, if_false]
      cases stripGroup g with
      | none => exact ih
      | some gX => exact List.Sublist.cons gX ih

/-- An entry value the strip phase deletes had no survivors. -/
theorem stripEntryVal_arr_none {gs : List JVal}
    (h : stripEntryVal (some (.arr gs)) = none) : gs.filterMap stripGroup = [] := by
  rw [stripEntryVal_arr_eq] at h
  by_cases hng : (gs.filterMap stripGroup).isEmpty = true
  · exact List.isEmpty_iff.mp hng
  · have hngf : (gs.filterMap stripGroup).isEmpty = false := by simpa using hng
    rw [hngf] at h
    simp at h

/-- The wholly foreign groups of an entry form a sublist of the groups the
stripped entry exposes. -/
theorem filter_unmanaged_sublist_egs (gs : List JVal) :
    List.Sublist (gs.filter unmanagedGroupB)
      (egs (stripEntryVal (some (.arr gs)))) := by
  rw [stripEntryVal_arr_eq]
  by_cases hng : (gs.filterMap stripGroup).isEmpty = true
  · rw [if_pos hng]
    have hnil : gs.filterMap stripGroup = [] := List.isEmpty_iff.mp hng
    have hsub := filter_unmanaged_sublist gs
    rw [hnil] at hsub
    rw [List.sublist_nil.mp hsub]
    exact List.nil_sublist _
  · have hngf : (gs.filterMap stripGroup).isEmpty = false := by simpa using hng
    rw [hngf]
    simp only [Bool.false_eq_true, if_false]
    show List.Sublist (gs.filter unmanagedGroupB)
      (egs (some (.arr (gs.filterMap stripGroup))))
    exact filter_unmanaged_sublist gs

/-- `stripGroup` through the named kept-handler functions. -/
theorem stripGroup_eq_kept (g : JVal) :
    stripGroup g =
      (if (keptHandlers g).isEmpty then none else some (stripRebuild g)) := rfl

/-- The strip phase on a group list: the groups with at least one
surviving handler, in their original order, each rebuilt with exactly its
surviving (non-managed) handlers. -/
theorem filterMap_stripGroup_eq (gs : List JVal) :
    gs.filterMap stripGroup = (gs.filter groupKeptB).map stripRebuild := by
  induction gs with
  | nil => rfl
  | cons g rest ih =>
    rw [List.filterMap_cons, List.filter_cons, stripGroup_eq_kept]
    by_cases hke : (keptHandlers g).isEmpty = true
    · rw [if_pos hke]
      rw [show groupKeptB g = false from by
        unfold groupKeptB
        rw [hke]
        rfl]
      simp only [Bool.false_eq_true, if_false]
      exact ih
    · have hkef : (keptHandlers g).isEmpty = false := by simpa using hke
      rw [if_neg hke]
      rw [show groupKeptB g = true from by
        unfold groupKeptB
        rw [hkef]
        rfl]
      simp only [if_true]
      rw [List.map_cons, ← ih]

/-- The groups a stripped array-valued entry exposes are exactly the strip
phase's survivors. -/
theorem egs_stripEntryVal_arr (gs : List JVal) :
    egs (stripEntryVal (some (.arr gs))) = gs.filterMap stripGroup := by
  rw [stripEntryVal_arr_eq]
  by_cases hng : (gs.filterMap stripGroup).isEmpty = true
  · rw [if_pos hng]
    rw [List.isEmpty_iff.mp hng]
    rfl
  · have hngf : (gs.filterMap stripGroup).isEmpty = false := by simpa using hng
    rw [hngf]
    simp only [Bool.false_eq_true, if_false]
    rfl

/-- C3 counterexample: a foreign group that contains no managed handler
(here: no handlers at all) is nonetheless dropped by reconciliation — the
whole `hooks` key disappears — refuting the literal claim that every
group without the ownership marker is kept unchanged. -/
theorem C3_counterexample :
    ((handlersOf (JVal.obj [("matcher", JVal.str "x"),
        ("hooks", JVal.arr [])])).all
      (fun h => !isManagedCommand (h.getField "command")) = true) ∧
    applyMappingsToSettings
      (JVal.obj [("hooks", JVal.obj [("Stop", JVal.arr
        [JVal.obj [("matcher", JVal.str "x"), ("hooks", JVal.arr [])]])])])
      [] = Except.ok (JVal.obj []) := by
  constructor
  · decide
  · rfl

/-- C3 (amended): for every well-formed settings document and valid
mapping, reconciliation (1) keeps every top-level key other than `hooks`
with its value unchanged; (2) within the groups of every event it removes
exactly the handlers whose command carries the ownership marker: the
surviving groups for an event are precisely the original groups that have
at least one non-managed handler, in their original relative order, each
rebuilt with exactly its non-managed handlers in their original order and
all other group fields untouched, followed by the synthesized group
exactly when the event is mapped to a non-empty sound; in particular
(2a) every wholly foreign group is kept verbatim in relative order and
(3) the synthesized group of a mapped event is appended after the
surviving groups.  (Correction to the literal claim: a group left with no
handlers after the strip — including a foreign group that had no handlers
or a non-array `hooks` field to begin with — is dropped, and an event
entry with no surviving groups is deleted.) -/
theorem C3_foreign_preservation (d : JVal) (m : List (String × String))
    (hwf : d.wfB = true) (hm : validMappingB m = true) :
    ∃ r, applyMappingsToSettings d m = .ok r ∧
      (∀ k, ¬ k = "hooks" → alGet r.ownEntries k = alGet d.ownEntries k) ∧
      (∀ e gs, alGet (hooksSpread d) e = some (.arr gs) →
        List.Sublist (gs.filter unmanagedGroupB) (egs (alGet (hooksSpread r) e))) ∧
      (∀ e s, alGet m e = some s → ¬ s = "" →
        alGet (hooksSpread r) e = some (.arr
          (egs (stripEntryVal (alGet (hooksSpread d) e)) ++
            [mkGroup (managedCommandString e s)]))) ∧
      (∀ e gs, alGet (hooksSpread d) e = some (.arr gs) →
        egs (alGet (hooksSpread r) e) =
          (gs.filter groupKeptB).map stripRebuild ++
          (match mappingValue m e with
          | some s => [mkGroup (managedCommandString e s)]
          | none => [])) := by
  have hmnd : (m.map Prod.fst).Nodup := (validMappingB_spec hm).1
  have hnd0 : (alKeys (hooksSpread d)).Nodup := by
    unfold hooksSpread
    cases hg : alGet d.ownEntries "hooks" with
    | none => exact List.nodup_nil
    | some h =>
      show (alKeys (if h.truthy then h.ownEntries else [])).Nodup
      by_cases ht : h.truthy = true
      · rw [ht]
        simp only [if_true]
        exact wfB_ownEntries_keys_nodup
          (wfB_ownEntries_values hwf _ (alGet_mem hg))
      · have htf : h.truthy = false := by simpa using ht
        rw [htf]
        simp only [Bool.false_eq_true, if_false]
        exact List.nodup_nil
  rcases @applyMappings_cases d m hm with ⟨hz, heq⟩ | ⟨hz, heq⟩
  · refine ⟨_, heq, ?_, ?_, ?_, ?_⟩
    · intro k hk
      show alGet (alDel d.ownEntries "hooks") k = _
      exact alGet_alDel_ne _ hk
    · intro e gs hgs
      rw [hooksSpread_del]
      have hSH : stripHooks (hooksSpread d) = [] :=
        ((applyAllPure_eq_nil_iff m _).mp hz).1
      have hget : alGet (stripHooks (hooksSpread d)) e =
          stripEntryVal (alGet (hooksSpread d) e) := alGet_stripHooks hnd0 e
      rw [hSH, hgs] at hget
      have hnone : stripEntryVal (some (.arr gs)) = none :=
        hget.symm.trans (rfl : alGet ([] : List (String × JVal)) e = none)
      have hfm := stripEntryVal_arr_none hnone
      have hsub := filter_unmanaged_sublist gs
      rw [hfm] at hsub
      rw [List.sublist_nil.mp hsub]
      exact List.nil_sublist _
    · intro e s hme hs0
      have hall : ∀ em ∈ m, em.2 = "" := ((applyAllPure_eq_nil_iff m _).mp hz).2
      exact absurd (hall (e, s) (alGet_mem hme)) hs0
    · intro e gs hgs
      rw [hooksSpread_del]
      have hSH : stripHooks (hooksSpread d) = [] :=
        ((applyAllPure_eq_nil_iff m _).mp hz).1
      have hget : alGet (stripHooks (hooksSpread d)) e =
          stripEntryVal (alGet (hooksSpread d) e) := alGet_stripHooks hnd0 e
      rw [hSH, hgs] at hget
      have hnone : stripEntryVal (some (.arr gs)) = none :=
        hget.symm.trans (rfl : alGet ([] : List (String × JVal)) e = none)
      have hfm := stripEntryVal_arr_none hnone
      have hall : ∀ em ∈ m, em.2 = "" := ((applyAllPure_eq_nil_iff m _).mp hz).2
      have hmv : mappingValue m e = none := by
        unfold mappingValue
        cases hme : alGet m e with
        | none => rfl
        | some s =>
          have hse : s = "" := hall (e, s) (alGet_mem hme)
          simp [hse]
      rw [← filterMap_stripGroup_eq, hfm, hmv]
      rfl
  · refine ⟨_, heq, ?_, ?_, ?_, ?_⟩
    · intro k hk
      show alGet (alSet d.ownEntries "hooks"
        (.obj (applyAllPure (stripHooks (hooksSpread d)) m))) k = _
      exact alGet_alSet_ne _ _ hk
    · intro e gs hgs
      rw [hooksSpread_set]
      cases hme : alGet m e with
      | none =>
        have hnm : e ∉ m.map Prod.fst := by
          intro hms
          have hsm := @alGet_isSome_of_mem_keys String m e hms
          rw [hme] at hsm
          simp at hsm
        rw [alGet_applyAllPure_not_mem hnm, alGet_stripHooks hnd0, hgs]
        exact filter_unmanaged_sublist_egs gs
      | some s =>
        by_cases hs0 : s = ""
        · subst hs0
          rw [alGet_applyAllPure_mem_empty hmnd (alGet_mem hme),
            alGet_stripHooks hnd0, hgs]
          exact filter_unmanaged_sublist_egs gs
        · rw [alGet_applyAllPure_mem hmnd (alGet_mem hme) hs0,
            alGet_stripHooks hnd0, hgs]
          show List.Sublist (gs.filter unmanagedGroupB)
            (egs (stripEntryVal (some (.arr gs))) ++
              [mkGroup (managedCommandString e s)])
          exact (filter_unmanaged_sublist_egs gs).trans
            (List.sublist_append_left _ _)
    · intro e s hme hs0
      rw [hooksSpread_set]
      rw [alGet_applyAllPure_mem hmnd (alGet_mem hme) hs0, alGet_stripHooks hnd0]
    · intro e gs hgs
      rw [hooksSpread_set]
      cases hme : alGet m e with
      | none =>
        have hnm : e ∉ m.map Prod.fst := by
          intro hms
          have hsm := @alGet_isSome_of_mem_keys String m e hms
          rw [hme] at hsm
          simp at hsm
        have hmv : mappingValue m e = none := by simp [mappingValue, hme]
        rw [alGet_applyAllPure_not_mem hnm, alGet_stripHooks hnd0, hgs,
          egs_stripEntryVal_arr, filterMap_stripGroup_eq, hmv]
        show (gs.filter groupKeptB).map stripRebuild =
          (gs.filter groupKeptB).map stripRebuild ++ []
        rw [List.append_nil]
      | some s =>
        by_cases hs0 : s = ""
        · subst hs0
          have hmv : mappingValue m e = none := by simp [mappingValue, hme]
          rw [alGet_applyAllPure_mem_empty hmnd (alGet_mem hme),
            alGet_stripHooks hnd0, hgs, egs_stripEntryVal_arr,
            filterMap_stripGroup_eq, hmv]
          show (gs.filter groupKeptB).map stripRebuild =
            (gs.filter groupKeptB).map stripRebuild ++ []
          rw [List.append_nil]
        · have hmv : mappingValue m e = some s := by
            simp [mappingValue, hme, hs0]
          rw [alGet_applyAllPure_mem hmnd (alGet_mem hme) hs0,
            alGet_stripHooks hnd0, hgs, egs_stripEntryVal_arr,
            filterMap_stripGroup_eq, hmv]
          rfl

set_option maxRecDepth 8000 in
theorem C3_foreign_preservation_witness :
    (JVal.obj [("a", JVal.num 1), ("hooks", JVal.obj [("Stop", JVal.arr
      [JVal.obj [("matcher", JVal.str "x"), ("hooks", JVal.arr
        [JVal.obj [("command", JVal.str "beep")],
         JVal.obj [("command", JVal.str
           ("a --sound ring9 " ++ MANAGED_TOKEN))]])]])])]).wfB = true ∧
    validMappingB [("Stop", "ring1")] = true ∧
    (∃ r, applyMappingsToSettings
        (JVal.obj [("a", JVal.num 1), ("hooks", JVal.obj [("Stop", JVal.arr
      [JVal.obj [("matcher", JVal.str "x"), ("hooks", JVal.arr
        [JVal.obj [("command", JVal.str "beep")],
         JVal.obj [("command", JVal.str
           ("a --sound ring9 " ++ MANAGED_TOKEN))]])]])])])
        [("Stop", "ring1")] = .ok r ∧
      (∀ k, ¬ k = "hooks" → alGet r.ownEntries k = alGet
        (JVal.obj [("a", JVal.num 1), ("hooks", JVal.obj [("Stop", JVal.arr
      [JVal.obj [("matcher", JVal.str "x"), ("hooks", JVal.arr
        [JVal.obj [("command", JVal.str "beep")],
         JVal.obj [("command", JVal.str
           ("a --sound ring9 " ++ MANAGED_TOKEN))]])]])])]).ownEntries k) ∧
      (∀ e gs, alGet (hooksSpread
          (JVal.obj [("a", JVal.num 1), ("hooks", JVal.obj [("Stop", JVal.arr
      [JVal.obj [("matcher", JVal.str "x"), ("hooks", JVal.arr
        [JVal.obj [("command", JVal.str "beep")],
         JVal.obj [("command", JVal.str
           ("a --sound ring9 " ++ MANAGED_TOKEN))]])]])])])) e = some (.arr gs) →
        List.Sublist (gs.filter unmanagedGroupB)
          (egs (alGet (hooksSpread r) e))) ∧
      (∀ e s, alGet [("Stop", "ring1")] e = some s → ¬ s = "" →
        alGet (hooksSpread r) e = some (.arr
          (egs (stripEntryVal (alGet (hooksSpread
            (JVal.obj [("a", JVal.num 1), ("hooks", JVal.obj [("Stop", JVal.arr
      [JVal.obj [("matcher", JVal.str "x"), ("hooks", JVal.arr
        [JVal.obj [("command", JVal.str "beep")],
         JVal.obj [("command", JVal.str
           ("a --sound ring9 " ++ MANAGED_TOKEN))]])]])])])) e)) ++
            [mkGroup (managedCommandString e s)]))) ∧
      (∀ e gs, alGet (hooksSpread
          (JVal.obj [("a", JVal.num 1), ("hooks", JVal.obj [("Stop", JVal.arr
      [JVal.obj [("matcher", JVal.str "x"), ("hooks", JVal.arr
        [JVal.obj [("command", JVal.str "beep")],
         JVal.obj [("command", JVal.str
           ("a --sound ring9 " ++ MANAGED_TOKEN))]])]])])])) e = some (.arr gs) →
        egs (alGet (hooksSpread r) e) =
          (gs.filter groupKeptB).map stripRebuild ++
          (match mappingValue [("Stop", "ring1")] e with
          | some s => [mkGroup (managedCommandString e s)]
          | none => []))) :=
  ⟨by decide, by decide,
    C3_foreign_preservation
      (JVal.obj [("a", JVal.num 1), ("hooks", JVal.obj [("Stop", JVal.arr
      [JVal.obj [("matcher", JVal.str "x"), ("hooks", JVal.arr
        [JVal.obj [("command", JVal.str "beep")],
         JVal.obj [("command", JVal.str
           ("a --sound ring9 " ++ MANAGED_TOKEN))]])]])])])
      [("Stop", "ring1")] (by decide) (by decide)⟩

end ClaudeSound.Hooks

namespace ClaudeSound.ImportSound

/-- `validateSourcePath` with its let bindings expanded. -/
theorem validateSourcePath_eq (fs : Fs) (inputPath : String) :
    validateSourcePath fs inputPath =
      (if jsTrim inputPath = "" then .error "Path cannot be empty"
      else if strIncludes (expandPath fs (jsTrim inputPath))
          (String.mk [Char.ofNat 0]) then
        .error "Invalid path"
      else if !ALLOWED_EXT.contains
          (lowerStr (pathExtname (expandPath fs (jsTrim inputPath)))) then
        .error ("Only .mp3 and .wav files are supported, got " ++
          lowerStr (pathExtname (expandPath fs (jsTrim inputPath))))
      else
        match fs.stat (expandPath fs (jsTrim inputPath)) with
        | none => .error "no such file"
        | some st =>
          if !st.isFile then .error "Path must be a file, not a directory"
          else if st.size > MAX_FILE_SIZE then .error "File too large"
          else if st.size = 0 then .error "File is empty"
          else .ok (expandPath fs (jsTrim inputPath),
            lowerStr (pathExtname (expandPath fs (jsTrim inputPath))),
            pathBasenameExt (expandPath fs (jsTrim inputPath))
              (lowerStr (pathExtname (expandPath fs (jsTrim inputPath)))))) := rfl

/-- Inversion of a successful source validation. -/
theorem validate_ok_facts {fs : Fs} {p : String} {r ext base : String}
    (h : validateSourcePath fs p = .ok (r, ext, base)) :
    r = expandPath fs (jsTrim p) ∧
    ext = lowerStr (pathExtname r) ∧
    ALLOWED_EXT.contains ext = true ∧
    (∃ st, fs.stat r = some st ∧ st.isFile = true ∧
      st.size ≤ MAX_FILE_SIZE ∧ ¬ st.size = 0) ∧
    base = pathBasenameExt r ext := by
  rw [validateSourcePath_eq] at h
  by_cases h1 : jsTrim p = ""
  · rw [if_pos h1] at h
    exact absurd h (by simp)
  · rw [if_neg h1] at h
    by_cases h2 : strIncludes (expandPath fs (jsTrim p))
        (String.mk [Char.ofNat 0]) = true
    · rw [if_pos h2] at h
      exact absurd h (by simp)
    · rw [if_neg h2] at h
      by_cases h3 : ALLOWED_EXT.contains
          (lowerStr (pathExtname (expandPath fs (jsTrim p)))) = true
      · rw [if_neg (show ¬ (!ALLOWED_EXT.contains
            (lowerStr (pathExtname (expandPath fs (jsTrim p))))) = true from by
          rw [h3]; decide)] at h
        split at h
        · exact absurd h (by simp)
        · rename_i st hst
          by_cases h4 : st.isFile = true
          · rw [if_neg (show ¬ (!st.isFile) = true from by rw [h4]; decide)] at h
            by_cases h5 : st.size > MAX_FILE_SIZE
            · rw [if_pos h5] at h
              exact absurd h (by simp)
            · rw [if_neg h5] at h
              by_cases h6 : st.size = 0
              · rw [if_pos h6] at h
                exact absurd h (by simp)
              · rw [if_neg h6] at h
                simp only [Except.ok.injEq, Prod.mk.injEq] at h
                obtain ⟨hr, hext, hbase⟩ := h
                subst hr
                subst hext
                subst hbase
                exact ⟨rfl, rfl, h3, ⟨st, hst, h4, by omega, h6⟩, rfl⟩
          · have h4f : st.isFile = false := by simpa using h4
            rw [if_pos (show (!st.isFile) = true from by rw [h4f]; decide)] at h
            exact absurd h (by simp)
      · have h3f : ALLOWED_EXT.contains
            (lowerStr (pathExtname (expandPath fs (jsTrim p)))) = false := by
          simpa using h3
        rw [if_pos (show (!ALLOWED_EXT.contains
            (lowerStr (pathExtname (expandPath fs (jsTrim p))))) = true from by
          rw [h3f]; decide)] at h
        exact absurd h (by simp)

/-- A validation that cannot succeed produces some error message. -/
theorem validate_error_exists {fs : Fs} {p : String}
    (h : ∀ res, ¬ validateSourcePath fs p = .ok res) :
    ∃ msg, validateSourcePath fs p = .error msg := by
  cases hv : validateSourcePath fs p with
  | error e => exact ⟨e, rfl⟩
  | ok res => exact absurd hv (h res)

/-- A failed validation makes the whole import fail with the same error. -/
theorem importSound_error {fs : Fs} {fuel : Nat} {p e : String}
    (h : validateSourcePath fs p = .error e) :
    importSound fs fuel p = .error e := by
  unfold importSound
  rw [h]
  rfl

/-- A successful validation with a free destination name yields exactly the
copied import result. -/
theorem importSound_ok {fs : Fs} {fuel : Nat} {p r ext base destName : String}
    (h : validateSourcePath fs p = .ok (r, ext, base))
    (hf : findFreeDest fs.fileExists (customSoundsDir fs.home)
        (String.mk ((slugifyFilename base).toList.take 40)) ext r fuel
        (String.mk ((slugifyFilename base).toList.take 40) ++ ext) 0
        = some destName) :
    importSound fs fuel p = .ok
      { soundId := "custom/" ++ pathBasenameExt destName ext
      , filePath := nodeJoin (customSoundsDir fs.home) destName
      , bytes := fs.readBytes r } := by
  unfold importSound
  rw [h]
  show (match findFreeDest fs.fileExists (customSoundsDir fs.home)
      (String.mk ((slugifyFilename base).toList.take 40)) ext r fuel
      (String.mk ((slugifyFilename base).toList.take 40) ++ ext) 0 with
    | none => (.error "no free destination name" : Except String ImportResult)
    | some destName =>
      pure { soundId := "custom/" ++ pathBasenameExt destName ext
           , filePath := nodeJoin (customSoundsDir fs.home) destName
           , bytes := fs.readBytes r }) = _
  rw [hf]
  rfl

/-- The collision loop only ever returns its starting candidate or a
hash-suffixed candidate. -/
theorem findFreeDest_shape (ex : String → Bool) (dir baseSlug ext resolved : String) :
    ∀ fuel destName attempt d,
      findFreeDest ex dir baseSlug ext resolved fuel destName attempt = some d →
      (d = destName ∨
        ∃ n : Nat, d = baseSlug ++ "-" ++ shortHash (resolved ++ toString n) ++ ext) := by
  intro fuel
  induction fuel with
  | zero =>
    intro destName attempt d h
    exact absurd h (by simp [findFreeDest])
  | succ fuel ih =>
    intro destName attempt d h
    unfold findFreeDest at h
    by_cases he : ex (nodeJoin dir destName) = true
    · rw [if_pos he] at h
      rcases ih _ _ _ h with h1 | ⟨n, hn⟩
      · exact Or.inr ⟨attempt, h1⟩
      · exact Or.inr ⟨n, hn⟩
    · rw [if_neg he] at h
      exact Or.inl (Option.some.inj h).symm

end ClaudeSound.ImportSound


namespace ClaudeSound.ImportSound

/-- `slugifyFilename` with its let bindings expanded. -/
theorem slugifyFilename_eq (name : String) :
    slugifyFilename name =
      (if (((collapseRuns
          (fun c => ('a' ≤ c && c ≤ 'z') || ('0' ≤ c && c ≤ '9') || c == '_' ||
            c == '-') false
          (name.toList.map Char.toLower)).dropWhile
            (fun c => c == '-')).reverse.dropWhile
              (fun c => c == '-')).reverse.isEmpty
        then "imported"
        else String.mk (((collapseRuns
          (fun c => ('a' ≤ c && c ≤ 'z') || ('0' ≤ c && c ≤ '9') || c == '_' ||
            c == '-') false
          (name.toList.map Char.toLower)).dropWhile
            (fun c => c == '-')).reverse.dropWhile
              (fun c => c == '-')).reverse) := rfl

theorem dropWhile_eq_self_of_all {p : Char → Bool} {l : List Char}
    (h : ∀ c ∈ l, p c = false) : l.dropWhile p = l := by
  cases l with
  | nil => rfl
  | cons a rest =>
    rw [List.dropWhile_cons, if_neg (by simp [h a (by simp)])]

theorem takeWhile_eq_self_of_all {p : Char → Bool} {l : List Char}
    (h : ∀ c ∈ l, p c = true) : l.takeWhile p = l := by
  induction l with
  | nil => rfl
  | cons a rest ih =>
    rw [List.takeWhile_cons, if_pos (h a (by simp))]
    rw [ih (fun c hc => h c (by simp [hc]))]

/-- Every character the run collapser emits is a good character or a
hyphen. -/
theorem collapseRuns_chars (good : Char → Bool) :
    ∀ (prev : Bool) (cs : List Char) (c : Char), c ∈ collapseRuns good prev cs →
      good c = true ∨ c = '-' := by
  intro prev cs
  induction cs generalizing prev with
  | nil =>
    intro c hc
    simp [collapseRuns] at hc
  | cons a rest ih =>
    intro c hc
    unfold collapseRuns at hc
    by_cases hg : good a = true
    · rw [if_pos hg] at hc
      rcases List.mem_cons.mp hc with rfl | hc
      · exact Or.inl hg
      · exact ih false c hc
    · rw [if_neg hg] at hc
      by_cases hp : prev = true
      · rw [if_pos hp] at hc
        exact ih prev c hc
      · rw [if_neg hp] at hc
        rcases List.mem_cons.mp hc with rfl | hc
        · exact Or.inr rfl
        · exact ih true c hc

/-- A slug never contains a path separator. -/
theorem slugifyFilename_no_slash (name : String) :
    ∀ c ∈ (slugifyFilename name).toList, ¬ c = '/' := by
  intro c hc
  rw [slugifyFilename_eq] at hc
  set L := ((collapseRuns
      (fun c => ('a' ≤ c && c ≤ 'z') || ('0' ≤ c && c ≤ '9') || c == '_' ||
        c == '-') false
      (name.toList.map Char.toLower)).dropWhile (fun c => c == '-')) with hL
  by_cases hs : ((L.reverse.dropWhile (fun c => c == '-')).reverse).isEmpty = true
  · rw [if_pos hs] at hc
    have hm : c ∈ ['i', 'm', 'p', 'o', 'r', 't', 'e', 'd'] := hc
    fin_cases hm <;> decide
  · rw [if_neg hs] at hc
    have hc2 : c ∈ (L.reverse.dropWhile (fun c => c == '-')).reverse := hc
    have hc3 : c ∈ L :=
      List.mem_reverse.mp
        ((List.dropWhile_sublist _).subset (List.mem_reverse.mp hc2))
    have hc4 : c ∈ collapseRuns
        (fun c => ('a' ≤ c && c ≤ 'z') || ('0' ≤ c && c ≤ '9') || c == '_' ||
          c == '-') false (name.toList.map Char.toLower) := by
      rw [hL] at hc3
      exact (List.dropWhile_sublist _).subset hc3
    rcases collapseRuns_chars _ _ _ _ hc4 with hg | hg
    · intro hcc
      rw [hcc] at hg
      exact absurd hg (by decide)
    · intro hcc
      rw [hcc] at hg
      exact absurd hg (by decide)

/-- A slug is never empty. -/
theorem slugifyFilename_ne_nil (name : String) :
    ¬ (slugifyFilename name).toList = [] := by
  rw [slugifyFilename_eq]
  set L := ((collapseRuns
      (fun c => ('a' ≤ c && c ≤ 'z') || ('0' ≤ c && c ≤ '9') || c == '_' ||
        c == '-') false
      (name.toList.map Char.toLower)).dropWhile (fun c => c == '-')) with hL
  by_cases hs : ((L.reverse.dropWhile (fun c => c == '-')).reverse).isEmpty = true
  · rw [if_pos hs]
    decide
  · rw [if_neg hs]
    intro he
    have h0 : ((L.reverse.dropWhile (fun c => c == '-')).reverse) = [] := he
    rw [h0] at hs
    simp at hs

/-- The 40-character truncation of a slug is still non-empty. -/
theorem takeSlug_ne_nil (base : String) :
    ¬ ((slugifyFilename base).toList.take 40) = [] := by
  intro h
  rw [List.take_eq_nil_iff] at h
  rcases h with h | h
  · exact absurd h (by decide)
  · exact slugifyFilename_ne_nil base h

theorem toList_append (a b : String) : (a ++ b).toList = a.toList ++ b.toList :=
  String.data_append a b

/-- `pathBasename` with its let binding expanded. -/
theorem pathBasename_eq (p : String) :
    pathBasename p = String.mk
      (((p.toList.reverse.dropWhile (fun c => c == '/')).reverse.reverse.takeWhile
        (fun c => c != '/')).reverse) := rfl

/-- A path without separators is its own basename. -/
theorem pathBasename_eq_self {p : String} (h : ∀ c ∈ p.toList, ¬ c = '/') :
    pathBasename p = p := by
  rw [pathBasename_eq]
  have h1 : p.toList.reverse.dropWhile (fun c => c == '/') = p.toList.reverse :=
    dropWhile_eq_self_of_all (fun c hc =>
      beq_eq_false_iff_ne.mpr (h c (List.mem_reverse.mp hc)))
  rw [h1, List.reverse_reverse]
  have h2 : p.toList.reverse.takeWhile (fun c => c != '/') = p.toList.reverse :=
    takeWhile_eq_self_of_all (fun c hc => by
      simp only [bne, Bool.not_eq_true']
      exact beq_eq_false_iff_ne.mpr (h c (List.mem_reverse.mp hc)))
  rw [h2, List.reverse_reverse]
  rfl

/-- `pathBasenameExt` with its let binding expanded. -/
theorem pathBasenameExt_eq (p ext : String) :
    pathBasenameExt p ext =
      (if ext ≠ "" && strEndsWith (pathBasename p) ext &&
          ext.toList.length < (pathBasename p).toList.length then
        strDropRight (pathBasename p) ext.toList.length
      else pathBasename p) := rfl

theorem strEndsWith_append (b ext : String) :
    strEndsWith (b ++ ext) ext = true := by
  unfold strEndsWith
  rw [toList_append, List.reverse_append]
  rw [List.take_left' (by rw [List.length_reverse])]
  simp

theorem strDropRight_append (b ext : String) :
    strDropRight (b ++ ext) ext.toList.length = b := by
  unfold strDropRight
  rw [toList_append, List.length_append]
  have h : b.toList.length + ext.toList.length - ext.toList.length
      = b.toList.length := by omega
  rw [h, List.take_left' rfl]
  rfl

/-- `path.basename(name, ext)` recovers the stem of `stem ++ ext` when
neither part contains a separator. -/
theorem pathBasenameExt_append {b ext : String}
    (hb : ∀ c ∈ b.toList, ¬ c = '/') (hbe : ¬ b.toList = [])
    (hext : ∀ c ∈ ext.toList, ¬ c = '/') (hene : ¬ ext = "") :
    pathBasenameExt (b ++ ext) ext = b := by
  have hall : ∀ c ∈ (b ++ ext).toList, ¬ c = '/' := by
    intro c hc
    rw [toList_append] at hc
    rcases List.mem_append.mp hc with hc | hc
    · exact hb c hc
    · exact hext c hc
  have hbb : pathBasename (b ++ ext) = b ++ ext := pathBasename_eq_self hall
  rw [pathBasenameExt_eq, hbb]
  have hcond : (ext ≠ "" && strEndsWith (b ++ ext) ext &&
      ext.toList.length < (b ++ ext).toList.length) = true := by
    simp only [Bool.and_eq_true, decide_eq_true_eq]
    refine ⟨⟨hene, strEndsWith_append b ext⟩, ?_⟩
    rw [toList_append, List.length_append]
    have h0 : 0 < b.toList.length := List.length_pos.mpr hbe
    omega
  rw [if_pos hcond]
  exact strDropRight_append b ext

/-- The two allowed lowercased extensions. -/
theorem ext_cases {ext : String} (h : ALLOWED_EXT.contains ext = true) :
    ext = ".mp3" ∨ ext = ".wav" := by
  have hm := (contains_iff_mem _ _).mp h
  simpa [ALLOWED_EXT] using hm

/-- C9: import validation.  A source path whose lowercased extension is
not `.mp3` or `.wav` makes the import fail; so does a path that `stat`s
to a directory, to an empty file, or to a file over five MiB.  When
validation succeeds and the collision loop settles on a destination name,
the import succeeds, the destination receives exactly the source's bytes,
the chosen name is either the truncated slug of the source file name or a
hash-suffixed variant of it, and in the collision-free case the sound id
is exactly `custom/` followed by that slug. -/
theorem C9_import_validation (fs : Fs) (fuel : Nat) (p : String) :
    (ALLOWED_EXT.contains (lowerStr (pathExtname (expandPath fs (jsTrim p))))
        = false →
      ∃ msg, importSound fs fuel p = .error msg) ∧
    (∀ st, fs.stat (expandPath fs (jsTrim p)) = some st → st.isFile = false →
      ∃ msg, importSound fs fuel p = .error msg) ∧
    (∀ st, fs.stat (expandPath fs (jsTrim p)) = some st → st.size = 0 →
      ∃ msg, importSound fs fuel p = .error msg) ∧
    (∀ st, fs.stat (expandPath fs (jsTrim p)) = some st →
      st.size > MAX_FILE_SIZE → ∃ msg, importSound fs fuel p = .error msg) ∧
    (∀ r ext base destName, validateSourcePath fs p = .ok (r, ext, base) →
      findFreeDest fs.fileExists (customSoundsDir fs.home)
          (String.mk ((slugifyFilename base).toList.take 40)) ext r fuel
          (String.mk ((slugifyFilename base).toList.take 40) ++ ext) 0
          = some destName →
      importSound fs fuel p = .ok
        { soundId := "custom/" ++ pathBasenameExt destName ext
        , filePath := nodeJoin (customSoundsDir fs.home) destName
        , bytes := fs.readBytes r } ∧
      (destName = String.mk ((slugifyFilename base).toList.take 40) ++ ext ∨
        ∃ n : Nat, destName = String.mk ((slugifyFilename base).toList.take 40)
          ++ "-" ++ shortHash (r ++ toString n) ++ ext) ∧
      pathBasenameExt (String.mk ((slugifyFilename base).toList.take 40) ++ ext)
        ext = String.mk ((slugifyFilename base).toList.take 40)) := by
  refine ⟨?_, ?_, ?_, ?_, ?_⟩
  · intro h
    have hno : ∀ res, ¬ validateSourcePath fs p = .ok res := by
      rintro ⟨r, ext, base⟩ hok
      have hfs := validate_ok_facts hok
      have h1 := hfs.2.2.1
      rw [hfs.2.1, hfs.1] at h1
      rw [h] at h1
      exact absurd h1 (by simp)
    obtain ⟨msg, hmsg⟩ := validate_error_exists hno
    exact ⟨msg, importSound_error hmsg⟩
  · intro st hst hfile
    have hno : ∀ res, ¬ validateSourcePath fs p = .ok res := by
      rintro ⟨r, ext, base⟩ hok
      obtain ⟨hr, _, _, ⟨st', hst', hfile', _, _⟩, _⟩ := validate_ok_facts hok
      rw [hr] at hst'
      have hss : st' = st := Option.some.inj (hst'.symm.trans hst)
      rw [hss, hfile] at hfile'
      exact absurd hfile' (by simp)
    obtain ⟨msg, hmsg⟩ := validate_error_exists hno
    exact ⟨msg, importSound_error hmsg⟩
  · intro st hst hsz
    have hno : ∀ res, ¬ validateSourcePath fs p = .ok res := by
      rintro ⟨r, ext, base⟩ hok
      obtain ⟨hr, _, _, ⟨st', hst', _, _, hsz'⟩, _⟩ := validate_ok_facts hok
      rw [hr] at hst'
      have hss : st' = st := Option.some.inj (hst'.symm.trans hst)
      rw [hss] at hsz'
      exact hsz' hsz
    obtain ⟨msg, hmsg⟩ := validate_error_exists hno
    exact ⟨msg, importSound_error hmsg⟩
  · intro st hst hsz
    have hno : ∀ res, ¬ validateSourcePath fs p = .ok res := by
      rintro ⟨r, ext, base⟩ hok
      obtain ⟨hr, _, _, ⟨st', hst', _, hsz', _⟩, _⟩ := validate_ok_facts hok
      rw [hr] at hst'
      have hss : st' = st := Option.some.inj (hst'.symm.trans hst)
      rw [hss] at hsz'
      omega
    obtain ⟨msg, hmsg⟩ := validate_error_exists hno
    exact ⟨msg, importSound_error hmsg⟩
  · intro r ext base destName hok hf
    refine ⟨importSound_ok hok hf, findFreeDest_shape _ _ _ _ _ fuel _ 0 _ hf, ?_⟩
    obtain ⟨_, _, hcont, _, _⟩ := validate_ok_facts hok
    have hb : ∀ c ∈ (String.mk ((slugifyFilename base).toList.take 40)).toList,
        ¬ c = '/' := by
      intro c hc
      exact slugifyFilename_no_slash base c (List.take_subset _ _ hc)
    have hbe : ¬ (String.mk ((slugifyFilename base).toList.take 40)).toList
        = [] := takeSlug_ne_nil base
    rcases ext_cases hcont with rfl | rfl
    · exact pathBasenameExt_append hb hbe (by decide) (by decide)
    · exact pathBasenameExt_append hb hbe (by decide) (by decide)

set_option maxRecDepth 8000 in
theorem C9_import_validation_witness :
    (∃ msg, importSound sampleFs 1 "a.txt" = .error msg) ∧
    (∃ msg, importSound sampleFs 1 "d.mp3" = .error msg) ∧
    (∃ msg, importSound sampleFs 1 "empty.mp3" = .error msg) ∧
    (∃ msg, importSound sampleFs 1 "big.mp3" = .error msg) ∧
    importSound sampleFs 1 "My Sound!.wav" = .ok
      { soundId := "custom/my-sound"
      , filePath := "/home/.claude-sound/sounds/my-sound.wav"
      , bytes := [1, 2, 3] } :=
  ⟨(C9_import_validation sampleFs 1 "a.txt").1 (by decide),
   (C9_import_validation sampleFs 1 "d.mp3").2.1
     { size := 5, isFile := false } (by rfl) (by rfl),
   (C9_import_validation sampleFs 1 "empty.mp3").2.2.1
     { size := 0, isFile := true } (by rfl) (by rfl),
   (C9_import_validation sampleFs 1 "big.mp3").2.2.2.1
     { size := 6 * 1024 * 1024, isFile := true } (by rfl) (by decide),
   ((C9_import_validation sampleFs 1 "My Sound!.wav").2.2.2.2
     "/cwd/My Sound!.wav" ".wav" "My Sound!" "my-sound.wav"
     (by rfl) (by rfl)).1⟩

end ClaudeSound.ImportSound
